import Mathlib

/-!
Verification development for the quiz answer reconciliation engine and the
bracket-balance validator of `latex_app.py`.

Strings are modelled as `List Char`.  Python regular-expression scans used by
the program (`clean_label`, `letter_to_index`, `norm`) are deterministic
because their character classes (whitespace, the letters A-D, the separator
characters) are pairwise disjoint, so each is embedded as a direct structural
scan.  Only ASCII whitespace is modelled.
-/

/-- A Lean string literal as the `List Char` the development works on. -/
def strL (s : String) : List Char := s.data

/-- The characters matched by the regex class backslash-s (ASCII part),
which is also what `str.strip()` removes. -/
def pySpace (c : Char) : Bool :=
  c = ' ' || c = '\t' || c = '\n' || c = '\r' || c = '\x0b' || c = '\x0c'

/-- The character class `[A-Da-d]` of the two label regexes. -/
def isLabelLetter (c : Char) : Bool :=
  ('A' ≤ c && c ≤ 'D') || ('a' ≤ c && c ≤ 'd')

/-- The separator class of the label regexes: one of `)` `.` `:` `-`. -/
def isSep (c : Char) : Bool := c = ')' || c = '.' || c = ':' || c = '-'

/-- Remove leading whitespace, as `str.lstrip()` does. -/
def lstrip (s : List Char) : List Char := s.dropWhile pySpace

/-- Remove trailing whitespace, as `str.rstrip()` does. -/
def rstrip (s : List Char) : List Char := (s.reverse.dropWhile pySpace).reverse

/-- `str.strip()`: remove leading and trailing whitespace. -/
def pyStrip (s : List Char) : List Char := rstrip (lstrip s)

/-- Upper-case one character, as `str.upper()` does on a letter. -/
def upperChar (c : Char) : Char :=
  if 'a' ≤ c && c ≤ 'z' then Char.ofNat (c.toNat - 32) else c

/-- `ord(m.group(1).upper()) - ord('A')` of `letter_to_index`. -/
def letterIdx (c : Char) : Nat := (upperChar c).toNat - 'A'.toNat

/-- The substitution step of `clean_label`: `re.sub` of the anchored pattern
whitespace-run, one letter A-D, whitespace-run, one mandatory separator,
whitespace-run, replaced by the empty string.  When the pattern does not
match at the start, the string is returned unchanged. -/
def labelSub (s : List Char) : List Char :=
  match s.dropWhile pySpace with
  | c :: rest =>
    if isLabelLetter c then
      match rest.dropWhile pySpace with
      | d :: rest2 => if isSep d then rest2.dropWhile pySpace else s
      | [] => s
    else s
  | [] => s

/-- `clean_label(s)` of the source, on string input: the label substitution
followed by `.strip()`. -/
def clean_label (s : List Char) : List Char := pyStrip (labelSub s)

/-- `letter_to_index(a)` of the source, on string input: full match of
whitespace-run, one letter A-D, whitespace-run, optional separator,
whitespace-run, end of string; on a match, the 0-based letter index. -/
def letter_to_index_str (a : List Char) : Option Nat :=
  match a.dropWhile pySpace with
  | c :: rest =>
    if isLabelLetter c then
      match rest.dropWhile pySpace with
      | [] => some (letterIdx c)
      | d :: rest2 =>
        if isSep d && (rest2.dropWhile pySpace).isEmpty then some (letterIdx c)
        else none
    else none
  | [] => none

/-- `re.sub` of one-or-more whitespace with a single space, as a streaming
scan: the flag records standing inside a whitespace run whose single
replacement space was already emitted. -/
def collapseAux : Bool → List Char → List Char
  | _, [] => []
  | inRun, c :: rest =>
    if pySpace c then
      if inRun then collapseAux true rest else ' ' :: collapseAux true rest
    else c :: collapseAux false rest

/-- Every maximal whitespace run becomes one space character. -/
def collapseWs (l : List Char) : List Char := collapseAux false l

/-- `norm(s)` of the source, on string input: strip, then collapse every
whitespace run to a single space. -/
def norm (s : List Char) : List Char := collapseWs (pyStrip s)

/-- The maximal whitespace-free runs of a string, in order.  Two strings have
the same such runs exactly when they differ only in where whitespace sits and
how the whitespace runs are composed. -/
def wordsOf : List Char → List (List Char)
  | [] => []
  | c :: rest =>
    if pySpace c then wordsOf rest
    else
      match rest, wordsOf rest with
      | [], _ => [[c]]
      | d :: _, ws =>
        if pySpace d then [c] :: ws
        else
          match ws with
          | w :: ws2 => (c :: w) :: ws2
          | [] => [[c]]

/-- Join words with single spaces. -/
def joinW (ws : List (List Char)) : List Char :=
  match ws with
  | [] => []
  | [w] => w
  | w :: rest => w ++ ' ' :: joinW rest

/-!  ## Python values

The quiz records are Python dicts produced by `json.loads`; their fields are
dynamic values.  `pyStr` is `str()` (the identity on strings; the textual
form, with `repr` of elements, on containers; escaping inside `repr` of
strings is not modelled, no modelled flow renders a non-string container). -/

/-- A parsed JSON value (a Python value as the quiz code sees it). -/
inductive JValue where
  | jnull
  | jbool (b : Bool)
  | jnum (n : Int)
  | jstr (s : List Char)
  | jlist (xs : List JValue)
  | jobj (fields : List (List Char × JValue))

/-- Join rendered elements with a comma and a space, as Python container
printing does. -/
def commaJoin (l : List (List Char)) : List Char :=
  match l with
  | [] => []
  | [x] => x
  | x :: xs => x ++ ',' :: ' ' :: commaJoin xs

mutual
/-- Python `repr` of a value (the form used for container elements). -/
def pyRepr : JValue → List Char
  | .jnull => strL "None"
  | .jbool b => if b then strL "True" else strL "False"
  | .jnum n => (toString n).data
  | .jstr s => Char.ofNat 39 :: s ++ [Char.ofNat 39]
  | .jlist xs => Char.ofNat 91 :: commaJoin (pyReprList xs) ++ [Char.ofNat 93]
  | .jobj fs => Char.ofNat 123 :: commaJoin (pyReprFields fs) ++ [Char.ofNat 125]

/-- `repr` of each element of a list. -/
def pyReprList : List JValue → List (List Char)
  | [] => []
  | x :: xs => pyRepr x :: pyReprList xs

/-- `repr` of each key-value pair of a dict. -/
def pyReprFields : List (List Char × JValue) → List (List Char)
  | [] => []
  | (k, v) :: fs =>
      (Char.ofNat 39 :: k ++ Char.ofNat 39 :: ':' :: ' ' :: pyRepr v) :: pyReprFields fs
end

/-- Python `str()` of a value: a string is returned as itself, anything else
via its `repr`-based textual form. -/
def pyStr : JValue → List Char
  | .jstr s => s
  | v => pyRepr v

/-- Python truthiness of a value: `None`, `False`, `0`, and empty containers
and strings are falsy. -/
def truthy : JValue → Bool
  | .jnull => false
  | .jbool b => b
  | .jnum n => n != 0
  | .jstr s => !s.isEmpty
  | .jlist xs => !xs.isEmpty
  | .jobj fs => !fs.isEmpty

/-- `clean_label` applied to an arbitrary value: the source calls `str(s)`
first. -/
def clean_labelV (v : JValue) : List Char := clean_label (pyStr v)

/-- `norm` applied to an arbitrary value: the source calls `str(s)` first. -/
def normV (v : JValue) : List Char := norm (pyStr v)

/-- `letter_to_index(a)` of the source: the `isinstance(a, str)` guard sends
every non-string to `None`. -/
def letter_to_index : JValue → Option Nat
  | .jstr s => letter_to_index_str s
  | _ => none

/-!  ## Records and the question bank -/

/-- A parsed JSON object: ordered key-value pairs (`json.loads` keeps each
key once). -/
def QRecord := List (List Char × JValue)

/-- `dict.get(k)`: the value stored under `k`, or nothing. -/
def rget (r : QRecord) (k : List Char) : Option JValue :=
  match r with
  | [] => none
  | (k2, v) :: rest => if k2 = k then some v else rget rest k

/-- `d[k] = v`: replace the value under `k`, or add the key at the end. -/
def rset (r : QRecord) (k : List Char) (v : JValue) : QRecord :=
  match r with
  | [] => [(k, v)]
  | (k2, v2) :: rest => if k2 = k then (k2, v) :: rest else (k2, v2) :: rset rest k v

/-- Truthiness of `dict.get(k)` (a missing key is `None`, which is falsy). -/
def truthyGet (r : QRecord) (k : List Char) : Bool :=
  match rget r k with
  | none => false
  | some v => truthy v

/-- A question as the quiz stores it: the fields `q`, `a` and `options` of
its dict. -/
structure Question where
  q : JValue
  a : JValue
  options : List JValue

/-- The question bank: topic name to ordered question sequence, as the
session's `quiz_data` dict. -/
def Bank := List (List Char × List Question)

/-- `quiz_data[topic]`: the sequence stored for a topic (`[]` only for a
topic the dict does not hold, which the page never asks for). -/
def bankGet (bank : Bank) (topic : List Char) : List Question :=
  match bank with
  | [] => []
  | (t, qs) :: rest => if t = topic then qs else bankGet rest topic

/-- Whether the bank holds the topic. -/
def hasTopic (bank : Bank) (topic : List Char) : Bool :=
  match bank with
  | [] => false
  | (t, _) :: rest => t = topic || hasTopic rest topic

/-- `quiz_data[topic].append(q)`: extend the topic's sequence at the end,
every other topic untouched. -/
def appendQ (bank : Bank) (topic : List Char) (q : Question) : Bank :=
  match bank with
  | [] => []
  | (t, qs) :: rest =>
    if t = topic then (t, qs ++ [q]) :: rest else (t, qs) :: appendQ rest topic q

/-!  ## The static quiz catalog, transcribed from the `QUIZ` literal -/

def QUIZ : Bank := [
  (strL "Basics", [
    Question.mk (JValue.jstr (strL "Which command defines the document class?")) (JValue.jstr (strL "\\documentclass\x7barticle\x7d")) [JValue.jstr (strL "\\begin\x7bdocument\x7d"), JValue.jstr (strL "\\documentclass\x7barticle\x7d"), JValue.jstr (strL "\\maketitle"), JValue.jstr (strL "\\usepackage\x7barticle\x7d")],
    Question.mk (JValue.jstr (strL "Which environment encloses the document body?")) (JValue.jstr (strL "\\begin\x7bdocument\x7d...\\end\x7bdocument\x7d")) [JValue.jstr (strL "\\begin\x7bbody\x7d...\\end\x7bbody\x7d"), JValue.jstr (strL "\\begin\x7btext\x7d...\\end\x7btext\x7d"), JValue.jstr (strL "\\begin\x7bdocument\x7d...\\end\x7bdocument\x7d"), JValue.jstr (strL "\\document\x7b...\x7d")],
    Question.mk (JValue.jstr (strL "What symbol starts a comment?")) (JValue.jstr (strL "%")) [JValue.jstr (strL "#"), JValue.jstr (strL "%"), JValue.jstr (strL "//"), JValue.jstr (strL "$")],
    Question.mk (JValue.jstr (strL "Minimal hello world class line?")) (JValue.jstr (strL "\\documentclass\x7barticle\x7d")) [JValue.jstr (strL "\\document\x7barticle\x7d"), JValue.jstr (strL "\\documentclass\x7barticle\x7d"), JValue.jstr (strL "\\class\x7barticle\x7d"), JValue.jstr (strL "\\usepackage\x7barticle\x7d")],
    Question.mk (JValue.jstr (strL "Write a TODO comment.")) (JValue.jstr (strL "% TODO")) [JValue.jstr (strL "\\/TODO"), JValue.jstr (strL "% TODO"), JValue.jstr (strL "$ TODO"), JValue.jstr (strL "# TODO")]
  ]),
  (strL "Math Mode", [
    Question.mk (JValue.jstr (strL "Inline math delimiters?")) (JValue.jstr (strL "$...$")) [JValue.jstr (strL "$...$"), JValue.jstr (strL "$$...$$"), JValue.jstr (strL "\\(...\\)"), JValue.jstr (strL "\\[...\\]")],
    Question.mk (JValue.jstr (strL "Display math (preferred LaTeX)?")) (JValue.jstr (strL "\\[...\\]")) [JValue.jstr (strL "$...$"), JValue.jstr (strL "$$...$$"), JValue.jstr (strL "\\[...\\]"), JValue.jstr (strL "\\display\x7b...\x7d")],
    Question.mk (JValue.jstr (strL "Write E=mc^2 inline.")) (JValue.jstr (strL "$E=mc^2$")) [JValue.jstr (strL "$E=mc^2$"), JValue.jstr (strL "\\[E=mc^2\\]"), JValue.jstr (strL "$$E=mc^2$$"), JValue.jstr (strL "E=mc^2")],
    Question.mk (JValue.jstr (strL "Sum i=1..n of i^2 (display).")) (JValue.jstr (strL "\\[\\sum_\x7bi=1\x7d^\x7bn\x7d i^2\\]")) [JValue.jstr (strL "$\\sum_\x7bi=1\x7d^\x7bn\x7d i^2$"), JValue.jstr (strL "\\[\\sum_\x7bi=1\x7d^\x7bn\x7d i^2\\]"), JValue.jstr (strL "\\display\x7b\\sum i^2\x7d"), JValue.jstr (strL "\\\x7b \\sum i^2 \\\x7d")],
    Question.mk (JValue.jstr (strL "Escape recommended for dx spacing?")) (JValue.jstr (strL "\\,")) [JValue.jstr (strL "\\:"), JValue.jstr (strL "\\;"), JValue.jstr (strL "\\,"), JValue.jstr (strL "\\!")]
  ]),
  (strL "Text Formatting", [
    Question.mk (JValue.jstr (strL "Bold ‘Hello’.")) (JValue.jstr (strL "\\textbf\x7bHello\x7d")) [JValue.jstr (strL "\\bold\x7bHello\x7d"), JValue.jstr (strL "\\textbf\x7bHello\x7d"), JValue.jstr (strL "\\bf\x7bHello\x7d"), JValue.jstr (strL "\\strong\x7bHello\x7d")],
    Question.mk (JValue.jstr (strL "Italic ‘World’.")) (JValue.jstr (strL "\\textit\x7bWorld\x7d")) [JValue.jstr (strL "\\italic\x7bWorld\x7d"), JValue.jstr (strL "\\em\x7bWorld\x7d"), JValue.jstr (strL "\\textit\x7bWorld\x7d"), JValue.jstr (strL "\\emph\x7bWorld\x7d")],
    Question.mk (JValue.jstr (strL "Underline ‘LaTeX’.")) (JValue.jstr (strL "\\underline\x7bLaTeX\x7d")) [JValue.jstr (strL "\\ul\x7bLaTeX\x7d"), JValue.jstr (strL "\\uline\x7bLaTeX\x7d"), JValue.jstr (strL "\\underline\x7bLaTeX\x7d"), JValue.jstr (strL "\\textul\x7bLaTeX\x7d")],
    Question.mk (JValue.jstr (strL "Start itemized list.")) (JValue.jstr (strL "\\begin\x7bitemize\x7d")) [JValue.jstr (strL "\\begin\x7blist\x7d"), JValue.jstr (strL "\\begin\x7bitems\x7d"), JValue.jstr (strL "\\begin\x7bitemize\x7d"), JValue.jstr (strL "\\begin\x7benumerate\x7d")],
    Question.mk (JValue.jstr (strL "End itemized list.")) (JValue.jstr (strL "\\end\x7bitemize\x7d")) [JValue.jstr (strL "\\end\x7bitems\x7d"), JValue.jstr (strL "\\end\x7blist\x7d"), JValue.jstr (strL "\\end\x7benumerate\x7d"), JValue.jstr (strL "\\end\x7bitemize\x7d")]
  ]),
  (strL "Symbols", [
    Question.mk (JValue.jstr (strL "Alpha and beta commands.")) (JValue.jstr (strL "\\alpha \\; \\beta")) [JValue.jstr (strL "\\a \\; \\b"), JValue.jstr (strL "\\alpha \\; \\beta"), JValue.jstr (strL "\\greek\x7balpha,beta\x7d"), JValue.jstr (strL "\\ab")],
    Question.mk (JValue.jstr (strL "Infinity symbol.")) (JValue.jstr (strL "\\infty")) [JValue.jstr (strL "\\inf"), JValue.jstr (strL "\\infin"), JValue.jstr (strL "\\infty"), JValue.jstr (strL "\\Infinity")],
    Question.mk (JValue.jstr (strL "Plus-minus.")) (JValue.jstr (strL "\\pm")) [JValue.jstr (strL "\\plusminus"), JValue.jstr (strL "\\pm"), JValue.jstr (strL "\\pmm"), JValue.jstr (strL "\\mp")],
    Question.mk (JValue.jstr (strL "Less-than-or-equal.")) (JValue.jstr (strL "\\le")) [JValue.jstr (strL "\\le"), JValue.jstr (strL "\\lte"), JValue.jstr (strL "\\<= "), JValue.jstr (strL "\\less=")],
    Question.mk (JValue.jstr (strL "Greater-than-or-equal.")) (JValue.jstr (strL "\\ge")) [JValue.jstr (strL "\\ge"), JValue.jstr (strL "\\gte"), JValue.jstr (strL "\\>="), JValue.jstr (strL "\\great=")]
  ]),
  (strL "Equations", [
    Question.mk (JValue.jstr (strL "Open equation env.")) (JValue.jstr (strL "\\begin\x7bequation\x7d")) [JValue.jstr (strL "\\begin\x7beq\x7d"), JValue.jstr (strL "\\begin\x7bequation\x7d"), JValue.jstr (strL "\\eq\x7b"), JValue.jstr (strL "\\equation\x7b")],
    Question.mk (JValue.jstr (strL "Close equation env.")) (JValue.jstr (strL "\\end\x7bequation\x7d")) [JValue.jstr (strL "\\end\x7beq\x7d"), JValue.jstr (strL "\\equation\x7d"), JValue.jstr (strL "\\end\x7bequation\x7d"), JValue.jstr (strL "\x7d")],
    Question.mk (JValue.jstr (strL "Open align env.")) (JValue.jstr (strL "\\begin\x7balign\x7d")) [JValue.jstr (strL "\\begin\x7baligned\x7d"), JValue.jstr (strL "\\align\x7b"), JValue.jstr (strL "\\begin\x7balign\x7d"), JValue.jstr (strL "\\begin\x7baln\x7d")],
    Question.mk (JValue.jstr (strL "Close align env.")) (JValue.jstr (strL "\\end\x7balign\x7d")) [JValue.jstr (strL "\\end\x7baligned\x7d"), JValue.jstr (strL "\\align\x7d"), JValue.jstr (strL "\\end\x7balign\x7d"), JValue.jstr (strL "\x7d")],
    Question.mk (JValue.jstr (strL "Aligned a+b=c in align.")) (JValue.jstr (strL "\\begin\x7balign\x7d a+b&=c \\end\x7balign\x7d")) [JValue.jstr (strL "\\begin\x7balign\x7d a+b=c \\end\x7balign\x7d"), JValue.jstr (strL "\\begin\x7balign\x7d a+b&=c \\end\x7balign\x7d"), JValue.jstr (strL "\\align\x7ba+b=c\x7d"), JValue.jstr (strL "a+b=c")]
  ]),
  (strL "Figures & Tables", [
    Question.mk (JValue.jstr (strL "Open figure env.")) (JValue.jstr (strL "\\begin\x7bfigure\x7d")) [JValue.jstr (strL "\\figure\x7b"), JValue.jstr (strL "\\begin\x7bfigure\x7d"), JValue.jstr (strL "\\fig\x7b"), JValue.jstr (strL "\\begin\x7bimage\x7d")],
    Question.mk (JValue.jstr (strL "Close figure env.")) (JValue.jstr (strL "\\end\x7bfigure\x7d")) [JValue.jstr (strL "\\end\x7bimage\x7d"), JValue.jstr (strL "\\end\x7bfig\x7d"), JValue.jstr (strL "\\end\x7bfigure\x7d"), JValue.jstr (strL "\x7d")],
    Question.mk (JValue.jstr (strL "Open tabular env.")) (JValue.jstr (strL "\\begin\x7btabular\x7d")) [JValue.jstr (strL "\\begin\x7btable\x7d"), JValue.jstr (strL "\\begin\x7btab\x7d"), JValue.jstr (strL "\\begin\x7btabular\x7d"), JValue.jstr (strL "\\table\x7b")],
    Question.mk (JValue.jstr (strL "Close tabular env.")) (JValue.jstr (strL "\\end\x7btabular\x7d")) [JValue.jstr (strL "\\end\x7btable\x7d"), JValue.jstr (strL "\\end\x7btab\x7d"), JValue.jstr (strL "\\end\x7btabular\x7d"), JValue.jstr (strL "\x7d")],
    Question.mk (JValue.jstr (strL "Caption command (blank).")) (JValue.jstr (strL "\\caption\x7b\x7d")) [JValue.jstr (strL "\\cap\x7b\x7d"), JValue.jstr (strL "\\caption\x7b\x7d"), JValue.jstr (strL "\\title\x7b\x7d"), JValue.jstr (strL "\\figcaption\x7b\x7d")]
  ]),
  (strL "Fractions & Roots", [
    Question.mk (JValue.jstr (strL "a/b as a fraction.")) (JValue.jstr (strL "\\frac\x7ba\x7d\x7bb\x7d")) [JValue.jstr (strL "\\divide\x7ba\x7d\x7bb\x7d"), JValue.jstr (strL "\\frac\x7ba\x7d\x7bb\x7d"), JValue.jstr (strL "\\frac\x7ba,b\x7d"), JValue.jstr (strL "a/b")],
    Question.mk (JValue.jstr (strL "Square root of x.")) (JValue.jstr (strL "\\sqrt\x7bx\x7d")) [JValue.jstr (strL "\\root\x7bx\x7d"), JValue.jstr (strL "\\sqrt\x7bx\x7d"), JValue.jstr (strL "\\sq\x7bx\x7d"), JValue.jstr (strL "\\sqr\x7bx\x7d")],
    Question.mk (JValue.jstr (strL "nth root of x.")) (JValue.jstr (strL "\\sqrt[n]\x7bx\x7d")) [JValue.jstr (strL "\\root[n]\x7bx\x7d"), JValue.jstr (strL "\\sqrt[n]\x7bx\x7d"), JValue.jstr (strL "\\nthroot\x7bx\x7d\x7bn\x7d"), JValue.jstr (strL "\\powerroot\x7bn\x7d\x7bx\x7d")],
    Question.mk (JValue.jstr (strL "(a+b)/c as fraction.")) (JValue.jstr (strL "\\frac\x7ba+b\x7d\x7bc\x7d")) [JValue.jstr (strL "\\frac\x7ba+b\x7d\x7bc\x7d"), JValue.jstr (strL "\\frac\x7ba+b,c\x7d"), JValue.jstr (strL "\x7ba+b\x7d/c"), JValue.jstr (strL "\\frac\x7ba\x7d\x7bb\x7d/c")],
    Question.mk (JValue.jstr (strL "sqrt(x^2 + y^2).")) (JValue.jstr (strL "\\sqrt\x7bx^2 + y^2\x7d")) [JValue.jstr (strL "\\sqrt\x7bx^2 + y^2\x7d"), JValue.jstr (strL "\\sqrt\x7bx^2 + y^2)\x7d"), JValue.jstr (strL "\\sqrt\x7bx^2 + y^2\x7d\x7d"), JValue.jstr (strL "\\sqrt\x7bx^2 + y^2]")]
  ]),
  (strL "Summations & Integrals", [
    Question.mk (JValue.jstr (strL "sum k=1..n of k.")) (JValue.jstr (strL "\\sum_\x7bk=1\x7d^\x7bn\x7d k")) [JValue.jstr (strL "\\sum_\x7bk=1\x7d^\x7bn\x7d k"), JValue.jstr (strL "\\sum k"), JValue.jstr (strL "sum(k)"), JValue.jstr (strL "\\add_\x7bk=1\x7d^\x7bn\x7d k")],
    Question.mk (JValue.jstr (strL "sum of squares 1..n.")) (JValue.jstr (strL "\\sum_\x7bk=1\x7d^\x7bn\x7d k^2")) [JValue.jstr (strL "\\sum_\x7bk=1\x7d^\x7bn\x7d k^2"), JValue.jstr (strL "\\sum k^2"), JValue.jstr (strL "\\sigma k^2"), JValue.jstr (strL "\\sum_\x7bk=1\x7d^n k^2")],
    Question.mk (JValue.jstr (strL "∫ x from 0 to 1.")) (JValue.jstr (strL "\\int_0^1 x \\, dx")) [JValue.jstr (strL "\\int_0^1 x dx"), JValue.jstr (strL "\\int_0^1 x \\, dx"), JValue.jstr (strL "\\int^1_0 x \\, dx"), JValue.jstr (strL "\\int x dx")],
    Question.mk (JValue.jstr (strL "∫ e^\x7b-x\x7d from 0 to ∞.")) (JValue.jstr (strL "\\int_0^\x7b\\infty\x7d e^\x7b-x\x7d \\, dx")) [JValue.jstr (strL "\\int_0^\x7b\\infty\x7d e^\x7b-x\x7d \\, dx"), JValue.jstr (strL "\\int_0^\\infty e^\x7b-x\x7d dx"), JValue.jstr (strL "\\int e^\x7b-x\x7d"), JValue.jstr (strL "\\int_0^\\infty e^\x7b-x\x7d \\, dx")],
    Question.mk (JValue.jstr (strL "Thin space command used above.")) (JValue.jstr (strL "\\,")) [JValue.jstr (strL "\\thin"), JValue.jstr (strL "\\ "), JValue.jstr (strL "\\,"), JValue.jstr (strL "\\~")]
  ]),
  (strL "Limits", [
    Question.mk (JValue.jstr (strL "lim x→0 sin x/x.")) (JValue.jstr (strL "\\lim_\x7bx \\to 0\x7d \\frac\x7b\\sin x\x7d\x7bx\x7d")) [JValue.jstr (strL "\\lim_\x7bx \\to 0\x7d \\frac\x7b\\sin x\x7d\x7bx\x7d"), JValue.jstr (strL "\\lim_\x7bx=0\x7d \\sin x/x"), JValue.jstr (strL "limit(sin x/x)"), JValue.jstr (strL "\\lim \\sin x/x")],
    Question.mk (JValue.jstr (strL "lim x→∞ (1+1/x)^x.")) (JValue.jstr (strL "\\lim_\x7bx \\to \\infty\x7d \\left(1+\\tfrac\x7b1\x7d\x7bx\x7d\\right)^x")) [JValue.jstr (strL "\\lim_\x7bx \\to \\infty\x7d (1+1/x)^x"), JValue.jstr (strL "\\lim_\x7bx \\to \\infty\x7d \\left(1+\\tfrac\x7b1\x7d\x7bx\x7d\\right)^x"), JValue.jstr (strL "(1+1/x)^x"), JValue.jstr (strL "\\lim \\tfrac\x7b1\x7d\x7bx\x7d")],
    Question.mk (JValue.jstr (strL "lim x→0 (1−cos x)/x^2.")) (JValue.jstr (strL "\\lim_\x7bx \\to 0\x7d \\frac\x7b1-\\cos x\x7d\x7bx^2\x7d")) [JValue.jstr (strL "\\lim_\x7bx \\to 0\x7d \\frac\x7b1-\\cos x\x7d\x7bx^2\x7d"), JValue.jstr (strL "(1-\\cos x)/x^2"), JValue.jstr (strL "\\frac\x7b1-\\cos x\x7d\x7bx^2\x7d"), JValue.jstr (strL "\\lim_\x7bx=0\x7d \\frac\x7b1-\\cos x\x7d\x7bx^2\x7d")],
    Question.mk (JValue.jstr (strL "Arrow for → in limits.")) (JValue.jstr (strL "\\to")) [JValue.jstr (strL "->"), JValue.jstr (strL "\\rightarrow"), JValue.jstr (strL "\\to"), JValue.jstr (strL "\\Rightarrow")],
    Question.mk (JValue.jstr (strL "Spacing command (just type it).")) (JValue.jstr (strL "\\,")) [JValue.jstr (strL "\\;"), JValue.jstr (strL "\\,"), JValue.jstr (strL "\\:"), JValue.jstr (strL "\\!")]
  ]),
  (strL "Matrices", [
    Question.mk (JValue.jstr (strL "2x2 bmatrix [[1,2],[3,4]].")) (JValue.jstr (strL "\\begin\x7bbmatrix\x7d1 & 2 \\\\ 3 & 4\\end\x7bbmatrix\x7d")) [JValue.jstr (strL "\\begin\x7bbmatrix\x7d1,2;3,4\\end\x7bbmatrix\x7d"), JValue.jstr (strL "\\begin\x7bbmatrix\x7d1 & 2 \\\\ 3 & 4\\end\x7bbmatrix\x7d"), JValue.jstr (strL "[1 2;3 4]"), JValue.jstr (strL "\\matrix\x7b1 2; 3 4\x7d")],
    Question.mk (JValue.jstr (strL "Identity 3x3 bmatrix.")) (JValue.jstr (strL "\\begin\x7bbmatrix\x7d1 & 0 & 0 \\\\ 0 & 1 & 0 \\\\ 0 & 0 & 1\\end\x7bbmatrix\x7d")) [JValue.jstr (strL "\\begin\x7bbmatrix\x7d1 0 0; 0 1 0; 0 0 1\\end\x7bbmatrix\x7d"), JValue.jstr (strL "\\begin\x7bbmatrix\x7d1 & 0 & 0 \\\\ 0 & 1 & 0 \\\\ 0 & 0 & 1\\end\x7bbmatrix\x7d"), JValue.jstr (strL "\\Id_\x7b3\x7d"), JValue.jstr (strL "\\begin\x7bmatrix\x7d...\\end\x7bmatrix\x7d")],
    Question.mk (JValue.jstr (strL "Open pmatrix.")) (JValue.jstr (strL "\\begin\x7bpmatrix\x7d")) [JValue.jstr (strL "\\pmatrix\x7b"), JValue.jstr (strL "\\begin\x7bpmatrix\x7d"), JValue.jstr (strL "\\pmatrix()"), JValue.jstr (strL "\\begin\x7bmatrix\x7d")],
    Question.mk (JValue.jstr (strL "Close pmatrix.")) (JValue.jstr (strL "\\end\x7bpmatrix\x7d")) [JValue.jstr (strL "\\pmatrix\x7d"), JValue.jstr (strL "\\end\x7bpmatrix\x7d"), JValue.jstr (strL "\\end\x7bmatrix\x7d"), JValue.jstr (strL "\x7d")],
    Question.mk (JValue.jstr (strL "Row separator command.")) (JValue.jstr (strL "\\\\\\\\")) [JValue.jstr (strL "&"), JValue.jstr (strL "\\\\"), JValue.jstr (strL "\\\\\\\\"), JValue.jstr (strL "\\;")]
  ]),
  (strL "Cases", [
    Question.mk (JValue.jstr (strL "Open a cases env.")) (JValue.jstr (strL "\\begin\x7bcases\x7d")) [JValue.jstr (strL "\\begin\x7bcase\x7d"), JValue.jstr (strL "\\cases\x7b"), JValue.jstr (strL "\\begin\x7bcases\x7d"), JValue.jstr (strL "\\case\x7b")],
    Question.mk (JValue.jstr (strL "Close a cases env.")) (JValue.jstr (strL "\\end\x7bcases\x7d")) [JValue.jstr (strL "\\case\x7d"), JValue.jstr (strL "\\end\x7bcase\x7d"), JValue.jstr (strL "\\end\x7bcases\x7d"), JValue.jstr (strL "\x7d")],
    Question.mk (JValue.jstr (strL "f(x)=x if x≥0 else -x (cases only).")) (JValue.jstr (strL "\\begin\x7bcases\x7dx & x\\ge 0 \\\\ -x & x<0 \\end\x7bcases\x7d")) [JValue.jstr (strL "x if x>=0 else -x"), JValue.jstr (strL "\\begin\x7bcases\x7dx & x\\ge 0 \\\\ -x & x<0 \\end\x7bcases\x7d"), JValue.jstr (strL "\\cases\x7bx,-x\x7d"), JValue.jstr (strL "\\\x7bx,-x\\\x7d")],
    Question.mk (JValue.jstr (strL "Symbol for ≥.")) (JValue.jstr (strL "\\ge")) [JValue.jstr (strL ">="), JValue.jstr (strL "\\geq"), JValue.jstr (strL "\\ge"), JValue.jstr (strL "\\gtr=")],
    Question.mk (JValue.jstr (strL "Symbol for <.")) (JValue.jstr (strL "<")) [JValue.jstr (strL "\\lt"), JValue.jstr (strL "<"), JValue.jstr (strL "\\less"), JValue.jstr (strL "\\lss")]
  ]),
  (strL "Vectors", [
    Question.mk (JValue.jstr (strL "Vector v with arrow.")) (JValue.jstr (strL "\\vec\x7bv\x7d")) [JValue.jstr (strL "\\vector\x7bv\x7d"), JValue.jstr (strL "\\vec\x7bv\x7d"), JValue.jstr (strL "\\overrightarrow\x7bv\x7d"), JValue.jstr (strL "\\v\x7bv\x7d")],
    Question.mk (JValue.jstr (strL "Bold vector u.")) (JValue.jstr (strL "\\mathbf\x7bu\x7d")) [JValue.jstr (strL "\\bold\x7bu\x7d"), JValue.jstr (strL "\\vec\x7bu\x7d"), JValue.jstr (strL "\\mathbf\x7bu\x7d"), JValue.jstr (strL "\\textbf\x7bu\x7d")],
    Question.mk (JValue.jstr (strL "Angle-bracket vector <1,2,3>.")) (JValue.jstr (strL "\\langle 1,2,3\\rangle")) [JValue.jstr (strL "<1,2,3>"), JValue.jstr (strL "\\langle 1,2,3\\rangle"), JValue.jstr (strL "\\<1,2,3\\>"), JValue.jstr (strL "\\left<1,2,3\\right>")],
    Question.mk (JValue.jstr (strL "Dot product u·v.")) (JValue.jstr (strL "\\mathbf\x7bu\x7d\\cdot\\mathbf\x7bv\x7d")) [JValue.jstr (strL "u*v"), JValue.jstr (strL "\\mathbf\x7bu\x7d\\cdot\\mathbf\x7bv\x7d"), JValue.jstr (strL "\\vec\x7bu\x7d\\cdot\\vec\x7bv\x7d"), JValue.jstr (strL "u.v")],
    Question.mk (JValue.jstr (strL "Norm ||v||.")) (JValue.jstr (strL "\\|v\\|")) [JValue.jstr (strL "|v|"), JValue.jstr (strL "\\|v\\|"), JValue.jstr (strL "\\norm\x7bv\x7d"), JValue.jstr (strL "\\abs\x7bv\x7d")]
  ]),
  (strL "Alignment", [
    Question.mk (JValue.jstr (strL "Open aligned env.")) (JValue.jstr (strL "\\begin\x7baligned\x7d")) [JValue.jstr (strL "\\begin\x7balign\x7d"), JValue.jstr (strL "\\begin\x7baligned\x7d"), JValue.jstr (strL "\\aligned\x7b"), JValue.jstr (strL "\\align\x7b")],
    Question.mk (JValue.jstr (strL "Close aligned env.")) (JValue.jstr (strL "\\end\x7baligned\x7d")) [JValue.jstr (strL "\\end\x7balign\x7d"), JValue.jstr (strL "\\aligned\x7d"), JValue.jstr (strL "\\end\x7baligned\x7d"), JValue.jstr (strL "\x7d")],
    Question.mk (JValue.jstr (strL "Align a+b=c and d-e=f.")) (JValue.jstr (strL "\\begin\x7baligned\x7d a+b&=c \\\\ d-e&=f \\end\x7baligned\x7d")) [JValue.jstr (strL "a+b=c; d-e=f"), JValue.jstr (strL "\\begin\x7baligned\x7d a+b&=c \\\\ d-e&=f \\end\x7baligned\x7d"), JValue.jstr (strL "\\begin\x7baligned\x7d a+b=c \\\\ d-e=f \\end\x7baligned\x7d"), JValue.jstr (strL "\\align\x7ba+b=c\x7d")],
    Question.mk (JValue.jstr (strL "Alignment marker symbol.")) (JValue.jstr (strL "&")) [JValue.jstr (strL "@"), JValue.jstr (strL "&"), JValue.jstr (strL "#"), JValue.jstr (strL "|")],
    Question.mk (JValue.jstr (strL "Line break in align/aligned.")) (JValue.jstr (strL "\\\\\\\\")) [JValue.jstr (strL "\\n"), JValue.jstr (strL "\\\\"), JValue.jstr (strL "\\\\\\\\"), JValue.jstr (strL "&")]
  ])
]

/-!  ## The quiz session state and its operations -/

/-- The per-session quiz state: `st.session_state.score`, `.attempted`,
`.review` and `.quiz_data`.  The attempted set is kept as the list of its
keys (the code adds a key only when absent, so the list never repeats). -/
structure AppState where
  score : Nat
  attempted : List (List Char)
  review : List (JValue × List Char × List Char)
  quiz_data : Bank

/-- The state set up on first interaction: zero score, nothing attempted,
empty review log, and a working copy of the static catalog. -/
def initState : AppState :=
  { score := 0, attempted := [], review := [], quiz_data := QUIZ }

/-- The credited-set key written for a submission: the f-string
`topic ++ "_" ++ q_idx`. -/
def submitKey (topic : List Char) (q_idx : Nat) : List Char :=
  topic ++ '_' :: (toString q_idx).data

/-- `options_text`: each option of the question with its label stripped, as
built for display and for the correctness check. -/
def optionsText (q : Question) : List (List Char) := q.options.map clean_labelV

/-- The correct-answer text the Check Answer handler resolves: if the answer
key is letter-like and in range, the label-stripped option text at that
index; otherwise the label-stripped answer key. -/
def correctText (q : Question) : List Char :=
  match letter_to_index q.a with
  | some idx =>
    if h : idx < (optionsText q).length then (optionsText q).get ⟨idx, h⟩
    else clean_labelV q.a
  | none => clean_labelV q.a

/-- One Check Answer press with a selection made: compare the normalised
submission against the normalised correct text, credit the question at most
once, and always append one review entry. -/
def checkAnswer (s : AppState) (q : Question) (topic : List Char) (q_idx : Nat)
    (ans : List Char) : AppState :=
  let correct_text := correctText q
  let s1 :=
    if norm ans = norm correct_text then
      if submitKey topic q_idx ∈ s.attempted then s
      else { s with score := s.score + 1, attempted := submitKey topic q_idx :: s.attempted }
    else s
  { s1 with review := s1.review ++ [(q.q, correct_text, ans)] }

/-- A submission for `(topic, q_idx)`: with no selection the handler only
re-prompts; the page renders a check button per existing index only, so an
out-of-range index never reaches the handler and is a no-op here. -/
def submitOp (s : AppState) (topic : List Char) (q_idx : Nat)
    (ans : Option (List Char)) : AppState :=
  match ans with
  | none => s
  | some a =>
    if h : q_idx < (bankGet s.quiz_data topic).length then
      checkAnswer s ((bankGet s.quiz_data topic).get ⟨q_idx, h⟩) topic q_idx a
    else s

/-!  ## The question ingestor -/

/-- The field name `q`. -/
def qKey : List Char := strL "q"

/-- The field name `a`. -/
def aKey : List Char := strL "a"

/-- The field name `options`. -/
def optionsKey : List Char := strL "options"

/-- `isinstance(new_q.get("options"), list)`. -/
def isListVal : Option JValue → Bool
  | some (.jlist _) => true
  | _ => false

/-- The shape check of the Generate New Question handler:
`new_q and isinstance(new_q.get("options"), list) and new_q.get("q") and
new_q.get("a")`.  A failed parse (`None`) is falsy. -/
def passesValidation (new_q : Option QRecord) : Bool :=
  match new_q with
  | none => false
  | some r =>
    !r.isEmpty && isListVal (rget r optionsKey) && truthyGet r qKey && truthyGet r aKey

/-- The options list of a validated record. -/
def optionsOf (r : QRecord) : List JValue :=
  match rget r optionsKey with
  | some (.jlist xs) => xs
  | _ => []

/-- The answer normalization of the handler: a letter answer in range is
replaced by the label-stripped text of the option it names; any other answer
is label-stripped in place. -/
def normalizeAnswer (r : QRecord) : QRecord :=
  let a := (rget r aKey).getD .jnull
  let opts := optionsOf r
  match letter_to_index a with
  | some idx =>
    if h : idx < opts.length then rset r aKey (.jstr (clean_labelV (opts.get ⟨idx, h⟩)))
    else rset r aKey (.jstr (clean_labelV a))
  | none => rset r aKey (.jstr (clean_labelV a))

/-- The fields of an appended record as the quiz later reads them. -/
def toQuestion (r : QRecord) : Question :=
  { q := (rget r qKey).getD .jnull, a := (rget r aKey).getD .jnull, options := optionsOf r }

/-- One Generate New Question outcome, applied to the session: a record that
passes the shape check is normalised and appended to the topic's sequence;
anything else only shows an error and leaves the state unchanged. -/
def ingestOp (s : AppState) (topic : List Char) (parsed : Option QRecord) : AppState :=
  match parsed with
  | some r =>
    if passesValidation (some r) then
      { s with quiz_data := appendQ s.quiz_data topic (toQuestion (normalizeAnswer r)) }
    else s
  | none => s

/-- One user action of the quiz page. -/
inductive QuizAct where
  | submit (topic : List Char) (q_idx : Nat) (ans : Option (List Char))
  | ingest (topic : List Char) (parsed : Option QRecord)

/-- Apply one action to the session. -/
def stepAct (s : AppState) : QuizAct → AppState
  | .submit t i a => submitOp s t i a
  | .ingest t p => ingestOp s t p

/-- Apply a sequence of actions in order. -/
def runActs (s : AppState) (acts : List QuizAct) : AppState := acts.foldl stepAct s

/-- Submit the same answer for the same question `n` times in a row. -/
def submitN (n : Nat) (t : List Char) (i : Nat) (c : List Char) (s : AppState) : AppState :=
  match n with
  | 0 => s
  | m + 1 => submitN m t i c (submitOp s t i (some c))

/-!  ## The bracket-balance validator -/

/-- The failure reports of `validate_latex`, one per message the source
formats. -/
inductive LatexError where
  | unmatchedClosing (pos : Nat)
  | mismatched (pos : Nat)
  | unmatchedOpening (c : Char)
  | emptyInput
deriving DecidableEq

/-- A key of `PAIR_MAP`: an opening bracket. -/
def isOpenB (c : Char) : Bool := c = '\x7b' || c = '(' || c = '['

/-- A value of `PAIR_MAP`: a closing bracket. -/
def isCloseB (c : Char) : Bool := c = '\x7d' || c = ')' || c = ']'

/-- `PAIR_MAP[c]` for an opener `c`. -/
def closeOf (c : Char) : Char :=
  if c = '\x7b' then '\x7d' else if c = '(' then ')' else ']'

/-- The scan of `validate_latex`: push openers, pop and match closers
(reporting an unmatched or mismatched closer at its position), and at the
end of the input report the top of a non-empty stack as the unmatched
opener. -/
def validateLoop : List Char → Nat → List Char → Option LatexError
  | [], _, stack =>
    match stack with
    | t :: _ => some (.unmatchedOpening t)
    | [] => none
  | ch :: rest, i, stack =>
    if isOpenB ch then validateLoop rest (i + 1) (ch :: stack)
    else if isCloseB ch then
      match stack with
      | [] => some (.unmatchedClosing i)
      | last :: stk =>
        if closeOf last = ch then validateLoop rest (i + 1) stk
        else some (.mismatched i)
    else validateLoop rest (i + 1) stack

/-- `validate_latex(s)`: the scan's verdict, then the emptiness check on the
stripped input.  `none` is the success verdict `(True, "")`. -/
def validate_latex (s : List Char) : Option LatexError :=
  match validateLoop s 0 [] with
  | some e => some e
  | none => if pyStrip s = [] then some .emptyInput else none

/-!  ## Specification-side definitions

These follow the specification's words, independently of the source, for the
claims that compare the two. -/

/-- Every character is whitespace. -/
def allSpace (l : List Char) : Prop := ∀ c ∈ l, pySpace c = true

/-- The label grammar exactly as one claim words it for `stripLabel`: one
letter A-D in either case, an optional separator, an optional following
space, removed from the very start; greedy, and with no such start the
string is only trimmed. -/
def specStripLabel (s : List Char) : List Char :=
  match s with
  | c :: rest =>
    if isLabelLetter c then
      let r1 :=
        match rest with
        | d :: r => if isSep d then r else rest
        | [] => rest
      let r2 :=
        match r1 with
        | ' ' :: r => r
        | _ => r1
      pyStrip r2
    else pyStrip s
  | [] => pyStrip s

/-- The key grammar exactly as one claim words it for `letterIndex`:
optional leading whitespace, one letter A-D, an optional separator
immediately after the letter, optional trailing whitespace, nothing else. -/
def specLetterIndex (s : List Char) : Option Nat :=
  match s.dropWhile pySpace with
  | c :: rest =>
    if isLabelLetter c then
      let r :=
        match rest with
        | d :: r2 => if isSep d then r2 else rest
        | [] => rest
      if (r.dropWhile pySpace).isEmpty then some (letterIdx c) else none
    else none
  | [] => none

/-- A decomposition of a string into the label prefix `clean_label` actually
removes (whitespace, letter, whitespace, one separator) and the remainder. -/
def LabelSplit (s rest : List Char) : Prop :=
  ∃ w1 c w2 d, s = w1 ++ c :: (w2 ++ d :: rest) ∧ allSpace w1 ∧
    isLabelLetter c = true ∧ allSpace w2 ∧ isSep d = true

/-- A whole string of the shape `letter_to_index` actually accepts:
whitespace, one letter A-D, whitespace, an optional separator, whitespace,
nothing else. -/
def LetterShape (s : List Char) (c : Char) : Prop :=
  ∃ w1 w2 sep w3, s = w1 ++ c :: (w2 ++ sep ++ w3) ∧ allSpace w1 ∧
    isLabelLetter c = true ∧ allSpace w2 ∧
    (sep = [] ∨ ∃ d, isSep d = true ∧ sep = [d]) ∧ allSpace w3

/-- The shape the ingest check actually accepts, stated structurally: a
non-empty record whose `options` field holds a list and whose `q` and `a`
fields hold truthy values. -/
def AcceptShape (r : QRecord) : Prop :=
  r ≠ [] ∧ (∃ xs, rget r optionsKey = some (.jlist xs)) ∧
    (∃ v, rget r qKey = some v ∧ truthy v = true) ∧
    (∃ v, rget r aKey = some v ∧ truthy v = true)

/-- Correct bracket nesting: empty, a non-bracket character before a nested
string, or an opener, a nested body, its matching closer and a nested
continuation. -/
inductive Nested : List Char → Prop
  | nil : Nested []
  | other (c : Char) (s : List Char) : isOpenB c = false → isCloseB c = false →
      Nested s → Nested (c :: s)
  | wrap (o : Char) (inner outer : List Char) : isOpenB o = true →
      Nested inner → Nested outer → Nested (o :: inner ++ closeOf o :: outer)

/-- `Closes s stack`: the string pops exactly the given stack, in order, with
correctly nested material between and after the matching closers. -/
inductive Closes : List Char → List Char → Prop
  | base (s : List Char) : Nested s → Closes s []
  | step (inner : List Char) (c : Char) (rest stack : List Char) :
      Nested inner → Closes rest stack →
      Closes (inner ++ closeOf c :: rest) (c :: stack)

/-!  ## Character-class facts -/

theorem char_eq_iff_toNat (c d : Char) : c = d ↔ c.toNat = d.toNat :=
  ⟨fun h => h ▸ rfl, fun h => Char.ext (UInt32.ext h)⟩

theorem char_le_iff_toNat (c d : Char) : c ≤ d ↔ c.toNat ≤ d.toNat := by
  rw [Char.le_def, UInt32.le_def, BitVec.le_def]; exact Iff.rfl

theorem pySpace_iff (c : Char) : pySpace c = true ↔
    (c.toNat = 32 ∨ c.toNat = 9 ∨ c.toNat = 10 ∨ c.toNat = 13 ∨
      c.toNat = 11 ∨ c.toNat = 12) := by
  simp only [pySpace, Bool.or_eq_true, decide_eq_true_eq, char_eq_iff_toNat,
    show (' ' : Char).toNat = 32 from rfl, show ('\t' : Char).toNat = 9 from rfl,
    show ('\n' : Char).toNat = 10 from rfl, show ('\r' : Char).toNat = 13 from rfl,
    show ('\x0b' : Char).toNat = 11 from rfl, show ('\x0c' : Char).toNat = 12 from rfl]
  omega

theorem isLabelLetter_iff (c : Char) : isLabelLetter c = true ↔
    ((65 ≤ c.toNat ∧ c.toNat ≤ 68) ∨ (97 ≤ c.toNat ∧ c.toNat ≤ 100)) := by
  simp only [isLabelLetter, Bool.or_eq_true, Bool.and_eq_true, decide_eq_true_eq,
    char_le_iff_toNat, show ('A' : Char).toNat = 65 from rfl,
    show ('D' : Char).toNat = 68 from rfl, show ('a' : Char).toNat = 97 from rfl,
    show ('d' : Char).toNat = 100 from rfl]

theorem isSep_iff (c : Char) : isSep c = true ↔
    (c.toNat = 41 ∨ c.toNat = 46 ∨ c.toNat = 58 ∨ c.toNat = 45) := by
  simp only [isSep, Bool.or_eq_true, decide_eq_true_eq, char_eq_iff_toNat,
    show (')' : Char).toNat = 41 from rfl, show ('.' : Char).toNat = 46 from rfl,
    show (':' : Char).toNat = 58 from rfl, show ('-' : Char).toNat = 45 from rfl]
  omega

theorem pySpace_not_letter {c : Char} (h : isLabelLetter c = true) : pySpace c = false := by
  rw [isLabelLetter_iff] at h
  rw [Bool.eq_false_iff]
  intro hs
  rw [pySpace_iff] at hs
  omega

theorem pySpace_not_sep {c : Char} (h : isSep c = true) : pySpace c = false := by
  rw [isSep_iff] at h
  rw [Bool.eq_false_iff]
  intro hs
  rw [pySpace_iff] at hs
  omega

/-!  ## Whitespace-scan helpers -/

theorem dropWhile_cons_neg {c : Char} (l : List Char) (h : pySpace c = false) :
    (c :: l).dropWhile pySpace = c :: l := by
  simp [List.dropWhile_cons, h]

theorem dropWhile_allSpace_append (w x : List Char) (hw : allSpace w) :
    (w ++ x).dropWhile pySpace = x.dropWhile pySpace := by
  induction w with
  | nil => rfl
  | cons a w ih =>
    have ha : pySpace a = true := hw a (List.mem_cons_self a w)
    simp only [List.cons_append, List.dropWhile_cons, ha, if_true]
    exact ih fun c hc => hw c (List.mem_cons_of_mem _ hc)

theorem allSpace_takeWhile (l : List Char) : allSpace (l.takeWhile pySpace) :=
  fun _ hc => List.mem_takeWhile_imp hc

theorem takeWhile_append_dropWhile_eq (l : List Char) :
    l.takeWhile pySpace ++ l.dropWhile pySpace = l :=
  List.takeWhile_append_dropWhile pySpace l

theorem clean_labelV_jstr (s : List Char) : clean_labelV (.jstr s) = clean_label s := rfl

/-!  ## C1: the correct-answer resolution at submission -/

theorem correctText_some_in (q : Question) (i : Nat) (hs : letter_to_index q.a = some i)
    (h : i < (optionsText q).length) : correctText q = (optionsText q).get ⟨i, h⟩ := by
  unfold correctText
  rw [hs]
  exact dif_pos h

theorem correctText_some_out (q : Question) (i : Nat) (hs : letter_to_index q.a = some i)
    (h : (optionsText q).length ≤ i) : correctText q = clean_labelV q.a := by
  unfold correctText
  rw [hs]
  exact dif_neg (by omega)

theorem correctText_none (q : Question) (hs : letter_to_index q.a = none) :
    correctText q = clean_labelV q.a := by
  unfold correctText
  rw [hs]

/-- C1: for a question whose answer key is the string `a` and whose options
are the strings `opts`, the correct-answer text the Check Answer handler
computes is `clean_label` of the option `letter_to_index` names whenever
that index exists and is in range, and `clean_label` of the key itself
otherwise; the resolution is a total function of the key text, so it never
raises. -/
theorem correctText_resolves (qt : JValue) (a : List Char) (opts : List (List Char)) :
    (∀ i, letter_to_index_str a = some i →
      (∀ h : i < opts.length,
        correctText ⟨qt, .jstr a, opts.map .jstr⟩ = clean_label (opts.get ⟨i, h⟩)) ∧
      (opts.length ≤ i → correctText ⟨qt, .jstr a, opts.map .jstr⟩ = clean_label a)) ∧
    (letter_to_index_str a = none →
      correctText ⟨qt, .jstr a, opts.map .jstr⟩ = clean_label a) := by
  have hlen : (optionsText ⟨qt, .jstr a, opts.map .jstr⟩).length = opts.length := by
    simp [optionsText]
  refine ⟨fun i hsome => ⟨fun h => ?_, fun h => ?_⟩, fun hnone => ?_⟩
  · rw [correctText_some_in ⟨qt, .jstr a, opts.map .jstr⟩ i hsome (hlen ▸ h)]
    simp [optionsText, List.getElem_map, clean_labelV_jstr]
  · exact correctText_some_out _ i hsome (by omega)
  · exact correctText_none _ hnone

/-!  ## C4: the label stripper -/

theorem dropWhile_idem (l : List Char) :
    (l.dropWhile pySpace).dropWhile pySpace = l.dropWhile pySpace := by
  induction l with
  | nil => rfl
  | cons c rest ih =>
    by_cases h : pySpace c = true
    · simp only [List.dropWhile_cons, h, if_true]
      exact ih
    · rw [Bool.not_eq_true] at h
      rw [dropWhile_cons_neg _ h, dropWhile_cons_neg _ h]

theorem pyStrip_dropWhile (l : List Char) :
    pyStrip (l.dropWhile pySpace) = pyStrip l := by
  unfold pyStrip lstrip
  rw [dropWhile_idem]

theorem labelSub_of_split {s rest : List Char} (h : LabelSplit s rest) :
    labelSub s = rest.dropWhile pySpace := by
  obtain ⟨w1, c, w2, d, rfl, hw1, hc, hw2, hd⟩ := h
  unfold labelSub
  rw [dropWhile_allSpace_append _ _ hw1, dropWhile_cons_neg _ (pySpace_not_letter hc)]
  simp only [hc, if_true]
  rw [dropWhile_allSpace_append _ _ hw2, dropWhile_cons_neg _ (pySpace_not_sep hd)]
  simp only [hd, if_true]

theorem labelSub_of_no_split {s : List Char} (h : ∀ rest, ¬ LabelSplit s rest) :
    labelSub s = s := by
  unfold labelSub
  rcases e1 : s.dropWhile pySpace with _ | ⟨c, X⟩
  · rfl
  by_cases hc : isLabelLetter c = true
  case neg => simp only [hc, if_false, Bool.false_eq_true]
  simp only [hc, if_true]
  have hsplit1 : s = s.takeWhile pySpace ++ c :: X := by
    conv_lhs => rw [← takeWhile_append_dropWhile_eq s]
    rw [e1]
  rcases e2 : X.dropWhile pySpace with _ | ⟨d, Y⟩
  · rfl
  by_cases hd : isSep d = true
  case neg => simp only [hd, if_false, Bool.false_eq_true]
  exfalso
  apply h Y
  refine ⟨s.takeWhile pySpace, c, X.takeWhile pySpace, d, ?_, allSpace_takeWhile s, hc,
    allSpace_takeWhile X, hd⟩
  rw [hsplit1]
  congr 1
  congr 1
  conv_lhs => rw [← takeWhile_append_dropWhile_eq X]
  rw [e2]

theorem labelSplit_unique {s r1 r2 : List Char} (h1 : LabelSplit s r1)
    (h2 : LabelSplit s r2) : r1 = r2 := by
  obtain ⟨w1, c, w2, d, rfl, hw1, hc, hw2, hd⟩ := h1
  obtain ⟨w1b, cb, w2b, db, hs, hw1b, hcb, hw2b, hdb⟩ := h2
  have e1 : (w1 ++ c :: (w2 ++ d :: r1)).dropWhile pySpace = c :: (w2 ++ d :: r1) := by
    rw [dropWhile_allSpace_append _ _ hw1, dropWhile_cons_neg _ (pySpace_not_letter hc)]
  have e2 : (w1b ++ cb :: (w2b ++ db :: r2)).dropWhile pySpace = cb :: (w2b ++ db :: r2) := by
    rw [dropWhile_allSpace_append _ _ hw1b, dropWhile_cons_neg _ (pySpace_not_letter hcb)]
  rw [← hs] at e2
  rw [e1] at e2
  obtain ⟨-, etail⟩ := List.cons.injEq .. ▸ e2
  have f1 : (w2 ++ d :: r1).dropWhile pySpace = d :: r1 := by
    rw [dropWhile_allSpace_append _ _ hw2, dropWhile_cons_neg _ (pySpace_not_sep hd)]
  have f2 : (w2b ++ db :: r2).dropWhile pySpace = db :: r2 := by
    rw [dropWhile_allSpace_append _ _ hw2b, dropWhile_cons_neg _ (pySpace_not_sep hdb)]
  rw [← etail] at f2
  rw [f1] at f2
  exact (List.cons.injEq .. ▸ f2).2

/-- C4 counterexample: on the input `"A B"` the claim's grammar (the
separator and following space both optional) strips the bare letter and
yields `"B"`, but `clean_label` requires a separator and returns the string
unchanged. -/
theorem clean_label_claim_counterexample :
    specStripLabel (strL "A B") = strL "B" ∧ clean_label (strL "A B") = strL "A B" := by
  constructor <;> decide

/-- C4 (amended): `clean_label` removes a leading label exactly when the
string starts with optional whitespace, one letter A-D in either case,
optional whitespace, and a mandatory separator among `) . : -`; it then
returns the trimmed remainder after the separator, and otherwise returns
the whole string trimmed, never altering interior content. -/
theorem clean_label_amended (s : List Char) :
    (∀ rest, LabelSplit s rest → clean_label s = pyStrip rest) ∧
    ((∀ rest, ¬ LabelSplit s rest) → clean_label s = pyStrip s) := by
  constructor
  · intro rest h
    unfold clean_label
    rw [labelSub_of_split h, pyStrip_dropWhile]
  · intro h
    unfold clean_label
    rw [labelSub_of_no_split h]

/-!  ## C6: the letter-to-index matcher -/

theorem allSpace_append {w1 w2 : List Char} (h1 : allSpace w1) (h2 : allSpace w2) :
    allSpace (w1 ++ w2) := by
  intro c hc
  rcases List.mem_append.mp hc with h | h
  · exact h1 c h
  · exact h2 c h

theorem dropWhile_allSpace_nil {w : List Char} (h : allSpace w) :
    w.dropWhile pySpace = [] :=
  List.dropWhile_eq_nil_iff.mpr h

theorem allSpace_of_dropWhile_nil {w : List Char} (h : w.dropWhile pySpace = []) :
    allSpace w :=
  List.dropWhile_eq_nil_iff.mp h

/-- C6 counterexample: `"A )"` has whitespace between the letter and the
separator, which the claim's grammar (separator immediately after the
letter) rejects, yet `letter_to_index` accepts it and answers index 0. -/
theorem letter_to_index_claim_counterexample :
    letter_to_index_str (strL "A )") = some 0 ∧ specLetterIndex (strL "A )") = none := by
  constructor <;> decide

/-- C6 (amended): `letter_to_index` answers `some i` on a string exactly
when the string is optional whitespace, one letter A-D in either case,
optional whitespace, an optional separator among `) . : -`, and optional
trailing whitespace, with nothing else; `i` is then the letter's 0-based
index, at most 3.  Every non-string input and every string carrying more
than a label token, such as `"A) full sentence"`, yields `none`. -/
theorem letter_to_index_amended :
    (∀ s i, letter_to_index_str s = some i ↔ ∃ c, LetterShape s c ∧ i = letterIdx c) ∧
    (∀ s i, letter_to_index_str s = some i → i ≤ 3) ∧
    (∀ v : JValue, (∀ t, v ≠ .jstr t) → letter_to_index v = none) ∧
    letter_to_index_str (strL "A) full sentence") = none := by
  have key : ∀ s i, letter_to_index_str s = some i ↔
      ∃ c, LetterShape s c ∧ i = letterIdx c := by
    intro s i
    constructor
    · intro h
      unfold letter_to_index_str at h
      rcases e1 : s.dropWhile pySpace with _ | ⟨c, rest⟩ <;> rw [e1] at h
      · exact absurd h (by simp)
      by_cases hc : isLabelLetter c = true
      case neg =>
        rw [Bool.not_eq_true] at hc
        simp [hc] at h
      simp only [hc, if_true] at h
      have hs1 : s = s.takeWhile pySpace ++ c :: rest := by
        conv_lhs => rw [← takeWhile_append_dropWhile_eq s]
        rw [e1]
      rcases e2 : rest.dropWhile pySpace with _ | ⟨d, rest2⟩ <;> rw [e2] at h
      · simp only [Option.some.injEq] at h
        refine ⟨c, ⟨s.takeWhile pySpace, rest, [], [], ?_, allSpace_takeWhile s, hc,
          allSpace_of_dropWhile_nil e2, Or.inl rfl, by intro x hx; cases hx⟩, h.symm⟩
        conv_lhs => rw [hs1]
        simp
      by_cases hd : isSep d = true
      case neg =>
        rw [Bool.not_eq_true] at hd
        simp [hd] at h
      by_cases he : (rest2.dropWhile pySpace).isEmpty = true
      case neg =>
        rw [Bool.not_eq_true] at he
        simp [hd, he] at h
      simp only [hd, he, Bool.and_self, if_true, Option.some.injEq] at h
      refine ⟨c, ⟨s.takeWhile pySpace, rest.takeWhile pySpace, [d], rest2, ?_,
        allSpace_takeWhile s, hc, allSpace_takeWhile rest,
        Or.inr ⟨d, hd, rfl⟩,
        allSpace_of_dropWhile_nil (List.isEmpty_iff.mp he)⟩, h.symm⟩
      conv_lhs => rw [hs1]
      congr 1
      congr 1
      conv_lhs => rw [← takeWhile_append_dropWhile_eq rest]
      rw [e2]
      simp
    · rintro ⟨c, ⟨w1, w2, sep, w3, rfl, hw1, hc, hw2, hsep, hw3⟩, rfl⟩
      unfold letter_to_index_str
      rw [dropWhile_allSpace_append _ _ hw1, dropWhile_cons_neg _ (pySpace_not_letter hc)]
      simp only [hc, if_true]
      rcases hsep with rfl | ⟨d, hd, rfl⟩
      · rw [List.append_nil]
        rw [dropWhile_allSpace_nil (allSpace_append hw2 hw3)]
      · rw [show w2 ++ [d] ++ w3 = w2 ++ d :: w3 by simp]
        rw [dropWhile_allSpace_append _ _ hw2, dropWhile_cons_neg _ (pySpace_not_sep hd)]
        simp [hd, dropWhile_allSpace_nil hw3]
  refine ⟨key, ?_, ?_, by decide⟩
  · intro s i h
    obtain ⟨c, ⟨_, _, _, _, _, _, hc, _, _, _⟩, rfl⟩ := (key s i).mp h
    rw [isLabelLetter_iff] at hc
    have hvals : c.toNat = 65 ∨ c.toNat = 66 ∨ c.toNat = 67 ∨ c.toNat = 68 ∨
        c.toNat = 97 ∨ c.toNat = 98 ∨ c.toNat = 99 ∨ c.toNat = 100 := by omega
    rcases hvals with h|h|h|h|h|h|h|h <;>
      first
      | (rw [(char_eq_iff_toNat c 'A').mpr h]; decide)
      | (rw [(char_eq_iff_toNat c 'B').mpr h]; decide)
      | (rw [(char_eq_iff_toNat c 'C').mpr h]; decide)
      | (rw [(char_eq_iff_toNat c 'D').mpr h]; decide)
      | (rw [(char_eq_iff_toNat c 'a').mpr h]; decide)
      | (rw [(char_eq_iff_toNat c 'b').mpr h]; decide)
      | (rw [(char_eq_iff_toNat c 'c').mpr h]; decide)
      | (rw [(char_eq_iff_toNat c 'd').mpr h]; decide)
  · rintro (_ | _ | _ | ⟨t⟩ | _ | _) h
    case jstr => exact absurd rfl (h t)
    all_goals rfl

/-!  ## C8: whitespace canonicalization -/

theorem collapseWs_nil : collapseWs [] = [] := rfl

theorem collapseAux_true_drop (l : List Char) :
    collapseAux true l = collapseAux false (l.dropWhile pySpace) := by
  induction l with
  | nil => rfl
  | cons c rest ih =>
    by_cases hc : pySpace c = true
    · simp [collapseAux, hc, List.dropWhile_cons, ih]
    · rw [Bool.not_eq_true] at hc
      simp [collapseAux, hc, List.dropWhile_cons]

theorem collapseWs_cons_space {c : Char} (l : List Char) (h : pySpace c = true) :
    collapseWs (c :: l) = ' ' :: collapseWs (l.dropWhile pySpace) := by
  simp only [collapseWs]
  simp [collapseAux, h, collapseAux_true_drop]

theorem collapseWs_cons_word {c : Char} (l : List Char) (h : pySpace c = false) :
    collapseWs (c :: l) = c :: collapseWs l := by
  simp only [collapseWs]
  simp [collapseAux, h]

theorem wordsOf_nil : wordsOf [] = [] := rfl

theorem wordsOf_cons_space {c : Char} (l : List Char) (h : pySpace c = true) :
    wordsOf (c :: l) = wordsOf l := by
  conv_lhs => rw [wordsOf.eq_def]
  simp [h]

theorem wordsOf_cons_word (c : Char) (l : List Char) (h : pySpace c = false) :
    wordsOf (c :: l) =
      (c :: l.takeWhile (fun d => !pySpace d)) ::
        wordsOf (l.dropWhile (fun d => !pySpace d)) := by
  induction l generalizing c with
  | nil => simp [wordsOf, h]
  | cons d rest2 ih =>
    by_cases hd : pySpace d = true
    · simp [wordsOf, h, hd, List.takeWhile_cons, List.dropWhile_cons]
    · rw [Bool.not_eq_true] at hd
      have ihd := ih d hd
      conv_lhs => rw [show wordsOf (c :: d :: rest2) =
        (match wordsOf (d :: rest2) with
          | w :: ws2 => (c :: w) :: ws2
          | [] => [[c]]) from by simp [wordsOf, h, hd]]
      rw [ihd]
      rw [List.takeWhile_cons, List.dropWhile_cons, if_pos (by simp [hd]), if_pos (by simp [hd])]

theorem words_drop_space (l : List Char) :
    wordsOf (l.dropWhile pySpace) = wordsOf l := by
  induction l with
  | nil => rfl
  | cons c rest ih =>
    by_cases hc : pySpace c = true
    · rw [List.dropWhile_cons, if_pos hc, ih, wordsOf_cons_space _ hc]
    · rw [Bool.not_eq_true] at hc
      rw [List.dropWhile_cons, if_neg (by simp [hc])]

theorem dropWhile_head_false {p : Char → Bool} {l : List Char} {c : Char} {X : List Char}
    (h : l.dropWhile p = c :: X) : p c = false := by
  induction l with
  | nil => cases h
  | cons a rest ih =>
    rw [List.dropWhile_cons] at h
    by_cases ha : p a = true
    · rw [if_pos ha] at h
      exact ih h
    · rw [Bool.not_eq_true] at ha
      rw [if_neg (by simp [ha])] at h
      injection h with h1 h2
      exact h1 ▸ ha

theorem takeWhile_append_all {p : Char → Bool} (u v : List Char) (h : ∀ c ∈ u, p c = true) :
    (u ++ v).takeWhile p = u ++ v.takeWhile p := by
  induction u with
  | nil => rfl
  | cons a u ih =>
    have ha := h a (List.mem_cons_self a u)
    simp only [List.cons_append, List.takeWhile_cons, ha, if_true]
    rw [ih fun c hc => h c (List.mem_cons_of_mem _ hc)]

theorem dropWhile_append_all {p : Char → Bool} (u v : List Char) (h : ∀ c ∈ u, p c = true) :
    (u ++ v).dropWhile p = v.dropWhile p := by
  induction u with
  | nil => rfl
  | cons a u ih =>
    have ha := h a (List.mem_cons_self a u)
    simp only [List.cons_append, List.dropWhile_cons, ha, if_true]
    exact ih fun c hc => h c (List.mem_cons_of_mem _ hc)

theorem allSpace_words_nil {T : List Char} (h : allSpace T) : wordsOf T = [] := by
  induction T with
  | nil => rfl
  | cons c rest ih =>
    rw [wordsOf_cons_space _ (h c (List.mem_cons_self c rest))]
    exact ih fun c hc => h c (List.mem_cons_of_mem _ hc)

theorem joinW_cons_head (c : Char) (w : List Char) (ws : List (List Char)) :
    joinW ((c :: w) :: ws) = c :: joinW (w :: ws) := by
  cases ws with
  | nil => rfl
  | cons x ws => rfl

theorem collapse_split (l : List Char) :
    collapseWs l = l.takeWhile (fun d => !pySpace d) ++
      collapseWs (l.dropWhile (fun d => !pySpace d)) := by
  induction l with
  | nil => rfl
  | cons c rest ih =>
    by_cases hc : pySpace c = true
    · rw [List.takeWhile_cons, List.dropWhile_cons, if_neg (by simp [hc]),
        if_neg (by simp [hc])]
      rfl
    · rw [Bool.not_eq_true] at hc
      rw [collapseWs_cons_word _ hc, List.takeWhile_cons, List.dropWhile_cons,
        if_pos (by simp [hc]), if_pos (by simp [hc]), List.cons_append, ih]

theorem words_collapse : ∀ n (l : List Char), l.length ≤ n →
    wordsOf (collapseWs l) = wordsOf l := by
  intro n
  induction n with
  | zero =>
    intro l hl
    obtain rfl : l = [] := List.eq_nil_of_length_eq_zero (Nat.le_zero.mp hl)
    rfl
  | succ n ih =>
    intro l hl
    cases l with
    | nil => rfl
    | cons c rest =>
      have hrest : rest.length ≤ n := by simpa using hl
      by_cases hc : pySpace c = true
      · rw [collapseWs_cons_space _ hc,
          wordsOf_cons_space _ (show pySpace ' ' = true by decide), wordsOf_cons_space _ hc]
        rw [ih (rest.dropWhile pySpace)
          (le_trans ((List.dropWhile_sublist _).length_le) hrest)]
        exact words_drop_space rest
      · rw [Bool.not_eq_true] at hc
        rw [collapseWs_cons_word _ hc, wordsOf_cons_word _ _ hc, wordsOf_cons_word _ _ hc]
        have htwall : ∀ x ∈ rest.takeWhile (fun d => !pySpace d),
            (fun d => !pySpace d) x = true :=
          fun x hx => @List.mem_takeWhile_imp Char (fun d => !pySpace d) rest x hx
        have take1 : (collapseWs rest).takeWhile (fun d => !pySpace d) =
            rest.takeWhile (fun d => !pySpace d) := by
          rw [collapse_split rest, takeWhile_append_all _ _ htwall]
          rcases hdw : rest.dropWhile (fun d => !pySpace d) with _ | ⟨e, Y⟩
          · simp [collapseWs_nil]
          · have he : pySpace e = true := by
              have := dropWhile_head_false hdw
              simpa using this
            rw [collapseWs_cons_space _ he, List.takeWhile_cons]
            rw [if_neg (by decide)]
            simp
        have drop1 : (collapseWs rest).dropWhile (fun d => !pySpace d) =
            collapseWs (rest.dropWhile (fun d => !pySpace d)) := by
          rw [collapse_split rest, dropWhile_append_all _ _ htwall]
          rcases hdw : rest.dropWhile (fun d => !pySpace d) with _ | ⟨e, Y⟩
          · simp [collapseWs_nil]
          · have he : pySpace e = true := by
              have := dropWhile_head_false hdw
              simpa using this
            rw [collapseWs_cons_space _ he, List.dropWhile_cons]
            rw [if_neg (by decide)]
        rw [take1, drop1]
        rw [ih (rest.dropWhile (fun d => !pySpace d))
          (le_trans ((List.dropWhile_sublist _).length_le) hrest)]

theorem words_append_trailing : ∀ n (A T : List Char), A.length ≤ n → allSpace T →
    wordsOf (A ++ T) = wordsOf A := by
  intro n
  induction n with
  | zero =>
    intro A T hl hT
    obtain rfl : A = [] := List.eq_nil_of_length_eq_zero (Nat.le_zero.mp hl)
    simpa using allSpace_words_nil hT
  | succ n ih =>
    intro A T hl hT
    cases A with
    | nil => simpa using allSpace_words_nil hT
    | cons c A2 =>
      have hA2len : A2.length ≤ n := by simpa using hl
      by_cases hc : pySpace c = true
      · rw [List.cons_append, wordsOf_cons_space _ hc, wordsOf_cons_space _ hc]
        exact ih A2 T hA2len hT
      · rw [Bool.not_eq_true] at hc
        rw [List.cons_append, wordsOf_cons_word _ _ hc, wordsOf_cons_word _ _ hc]
        rcases hdw : A2.dropWhile (fun d => !pySpace d) with _ | ⟨e, Y⟩
        · have hA2 : ∀ x ∈ A2, (fun d => !pySpace d) x = true :=
            List.dropWhile_eq_nil_iff.mp hdw
          rw [takeWhile_append_all _ _ hA2, dropWhile_append_all _ _ hA2]
          have htT : T.takeWhile (fun d => !pySpace d) = [] := by
            cases T with
            | nil => rfl
            | cons t T2 =>
              rw [List.takeWhile_cons, if_neg (by simp [hT t (List.mem_cons_self t T2)])]
          have hdT : wordsOf (T.dropWhile (fun d => !pySpace d)) = [] := by
            cases T with
            | nil => rfl
            | cons t T2 =>
              rw [List.dropWhile_cons, if_neg (by simp [hT t (List.mem_cons_self t T2)])]
              exact allSpace_words_nil hT
          have htwA2 : A2.takeWhile (fun d => !pySpace d) = A2 := by
            have := takeWhile_append_all A2 [] hA2
            simpa using this
          simp [htT, hdT, htwA2, hdw, wordsOf_nil]
        · have he : pySpace e = true := by
            have := dropWhile_head_false hdw
            simpa using this
          have htwall : ∀ x ∈ A2.takeWhile (fun d => !pySpace d),
              (fun d => !pySpace d) x = true :=
            fun x hx => @List.mem_takeWhile_imp Char (fun d => !pySpace d) A2 x hx
          have hsplitA : A2 = A2.takeWhile (fun d => !pySpace d) ++ (e :: Y) := by
            conv_lhs => rw [← List.takeWhile_append_dropWhile (fun d => !pySpace d) A2]
            rw [hdw]
          have take2 : (A2 ++ T).takeWhile (fun d => !pySpace d) =
              A2.takeWhile (fun d => !pySpace d) := by
            conv_lhs => rw [hsplitA]
            rw [List.append_assoc, takeWhile_append_all _ _ htwall, List.cons_append,
              List.takeWhile_cons, if_neg (by simp [he])]
            simp
          have drop2 : (A2 ++ T).dropWhile (fun d => !pySpace d) = e :: (Y ++ T) := by
            conv_lhs => rw [hsplitA]
            rw [List.append_assoc, dropWhile_append_all _ _ htwall, List.cons_append,
              List.dropWhile_cons, if_neg (by simp [he])]
          rw [take2, drop2]
          have : wordsOf ((e :: Y) ++ T) = wordsOf (e :: Y) := by
            refine ih (e :: Y) T ?_ hT
            calc (e :: Y).length = (A2.dropWhile (fun d => !pySpace d)).length := by rw [hdw]
            _ ≤ A2.length := (List.dropWhile_sublist _).length_le
            _ ≤ n := hA2len
          rw [← this]
          rfl

theorem words_rstrip (X : List Char) : wordsOf (rstrip X) = wordsOf X := by
  have hdecomp : X = rstrip X ++ (X.reverse.takeWhile pySpace).reverse := by
    conv_lhs => rw [← List.reverse_reverse X]
    conv_lhs => rw [← List.takeWhile_append_dropWhile pySpace X.reverse]
    rw [List.reverse_append]
    rfl
  have hT : allSpace (X.reverse.takeWhile pySpace).reverse := by
    intro c hc
    exact List.mem_takeWhile_imp (List.mem_reverse.mp hc)
  conv_rhs => rw [hdecomp]
  rw [words_append_trailing (rstrip X).length (rstrip X) _ le_rfl hT]

theorem words_pyStrip (s : List Char) : wordsOf (pyStrip s) = wordsOf s := by
  unfold pyStrip
  rw [words_rstrip]
  exact words_drop_space s

theorem words_norm (s : List Char) : wordsOf (norm s) = wordsOf s := by
  show wordsOf (collapseWs (pyStrip s)) = wordsOf s
  rw [words_collapse (pyStrip s).length (pyStrip s) le_rfl]
  exact words_pyStrip s

theorem mem_of_getLast : ∀ (l : List Char) (a : Char), l.getLast? = some a → a ∈ l
  | [], _, h => by cases h
  | [x], a, h => by
      simp only [List.getLast?_singleton, Option.some.injEq] at h
      exact h ▸ List.mem_cons_self x []
  | x :: y :: l2, a, h => by
      rw [List.getLast?_cons_cons] at h
      exact List.mem_cons_of_mem x (mem_of_getLast (y :: l2) a h)

theorem joinW_double (w x : List Char) (ws : List (List Char)) :
    joinW (w :: x :: ws) = w ++ ' ' :: joinW (x :: ws) := rfl

theorem collapse_eq_join : ∀ n (s : List Char), s.length ≤ n →
    (∀ c ∈ s.head?, pySpace c = false) → (∀ c ∈ s.getLast?, pySpace c = false) →
    collapseWs s = joinW (wordsOf s) := by
  intro n
  induction n with
  | zero =>
    intro s hl _ _
    obtain rfl : s = [] := List.eq_nil_of_length_eq_zero (Nat.le_zero.mp hl)
    rfl
  | succ n ih =>
    intro s hlen hh hl
    cases s with
    | nil => rfl
    | cons c rest =>
      have hc : pySpace c = false := hh c (by simp)
      rw [collapseWs_cons_word _ hc, wordsOf_cons_word _ _ hc]
      cases rest with
      | nil => rfl
      | cons d rest2 =>
        have hlast : ∀ x ∈ (d :: rest2).getLast?, pySpace x = false := by
          intro x hx
          exact hl x (by rwa [List.getLast?_cons_cons])
        by_cases hd : pySpace d = true
        · rw [collapseWs_cons_space _ hd]
          have ht : (d :: rest2).takeWhile (fun x => !pySpace x) = [] := by
            rw [List.takeWhile_cons, if_neg (by simp [hd])]
          have hdr : (d :: rest2).dropWhile (fun x => !pySpace x) = d :: rest2 := by
            rw [List.dropWhile_cons, if_neg (by simp [hd])]
          rw [ht, hdr, wordsOf_cons_space _ hd, ← words_drop_space rest2]
          rcases hu : rest2.dropWhile pySpace with _ | ⟨e, u2⟩
          · exfalso
            have hall : allSpace (d :: rest2) := by
              intro x hx
              rcases List.mem_cons.mp hx with rfl | hx2
              · exact hd
              · exact allSpace_of_dropWhile_nil hu x hx2
            have hlx : (d :: rest2).getLast? = some (rest2.getLast?.getD d) :=
              List.getLast?_cons
            have h1 := hall _ (mem_of_getLast _ _ hlx)
            have h2 := hlast _ (Option.mem_def.mpr hlx)
            rw [h2] at h1
            exact absurd h1 (by decide)
          · have he : pySpace e = false := dropWhile_head_false hu
            have hwne : wordsOf (e :: u2) =
                (e :: u2.takeWhile (fun x => !pySpace x)) ::
                  wordsOf (u2.dropWhile (fun x => !pySpace x)) := wordsOf_cons_word _ _ he
            rw [hwne, joinW_double, ← hwne]
            have hsuffix : (e :: u2) <:+ (c :: d :: rest2) := by
              refine List.IsSuffix.trans ?_ (List.suffix_cons c (d :: rest2))
              refine List.IsSuffix.trans ?_ (List.suffix_cons d rest2)
              rw [← hu]
              exact List.dropWhile_suffix pySpace
            have := ih (e :: u2) ?_ ?_ ?_
            · rw [this]
              rfl
            · have : (e :: u2).length ≤ rest2.length := by
                rw [← hu]
                exact (List.dropWhile_sublist pySpace).length_le
              simp only [List.length_cons] at hlen this ⊢
              omega
            · intro x hx
              simp only [List.head?_cons, Option.mem_def, Option.some.injEq] at hx
              exact hx ▸ he
            · intro x hx
              rw [Option.mem_def] at hx
              apply hl x
              rw [Option.mem_def]
              obtain ⟨w, hw⟩ := hsuffix
              rw [← hw, List.getLast?_append, hx]
              rfl
        · rw [Bool.not_eq_true] at hd
          rw [List.takeWhile_cons, List.dropWhile_cons, if_pos (by simp [hd]),
            if_pos (by simp [hd])]
          rw [joinW_cons_head, ← wordsOf_cons_word d rest2 hd]
          have := ih (d :: rest2) (by simpa using hlen) ?_ hlast
          · rw [this]
          · intro x hx
            simp only [List.head?_cons, Option.mem_def, Option.some.injEq] at hx
            exact hx ▸ hd

theorem pyStrip_head_not_space (s : List Char) :
    ∀ c ∈ (pyStrip s).head?, pySpace c = false := by
  intro c hc
  rw [Option.mem_def] at hc
  have hdecomp : lstrip s = pyStrip s ++ ((lstrip s).reverse.takeWhile pySpace).reverse := by
    show lstrip s = rstrip (lstrip s) ++ _
    conv_lhs => rw [← List.reverse_reverse (lstrip s)]
    conv_lhs => rw [← List.takeWhile_append_dropWhile pySpace (lstrip s).reverse]
    rw [List.reverse_append]
    rfl
  have hX : (lstrip s).head? = some c := by
    rw [hdecomp, List.head?_append, hc]
    rfl
  rcases hXe : lstrip s with _ | ⟨d, X2⟩
  · rw [hXe] at hX
    cases hX
  · rw [hXe] at hX
    injection hX with hX
    have hdrop : s.dropWhile pySpace = d :: X2 := hXe
    exact hX ▸ dropWhile_head_false hdrop

theorem pyStrip_last_not_space (s : List Char) :
    ∀ c ∈ (pyStrip s).getLast?, pySpace c = false := by
  intro c hc
  rw [Option.mem_def] at hc
  have hc2 : (((lstrip s).reverse.dropWhile pySpace).reverse).getLast? = some c := hc
  rw [List.getLast?_reverse] at hc2
  rcases hY : (lstrip s).reverse.dropWhile pySpace with _ | ⟨d, Y2⟩
  · rw [hY] at hc2
    cases hc2
  · rw [hY] at hc2
    injection hc2 with hc2
    exact hc2 ▸ dropWhile_head_false hY

theorem norm_words (s : List Char) : norm s = joinW (wordsOf s) := by
  show collapseWs (pyStrip s) = joinW (wordsOf s)
  rw [collapse_eq_join (pyStrip s).length (pyStrip s) le_rfl (pyStrip_head_not_space s)
    (pyStrip_last_not_space s), words_pyStrip]

/-- C8: `norm` trims leading and trailing whitespace and collapses every
internal whitespace run to one space while preserving case: the two quoted
examples hold, and two strings normalise equal exactly when their maximal
whitespace-free runs agree, i.e. when they differ only in leading and
trailing whitespace and in the internal whitespace runs. -/
theorem norm_canonicalize :
    norm (strL "  A  B ") = norm (strL "A B") ∧
    norm (strL "A") ≠ norm (strL "a") ∧
    (∀ s t, norm s = norm t ↔ wordsOf s = wordsOf t) := by
  refine ⟨by decide, by decide, fun s t => ⟨fun h => ?_, fun h => ?_⟩⟩
  · rw [← words_norm s, ← words_norm t, h]
  · rw [norm_words s, norm_words t, h]

/-!  ## C7: the bracket-balance validator -/

theorem isCloseB_closeOf (o : Char) : isCloseB (closeOf o) = true := by
  unfold closeOf
  by_cases h1 : o = '\x7b'
  · rw [if_pos h1]; decide
  · rw [if_neg h1]
    by_cases h2 : o = '('
    · rw [if_pos h2]; decide
    · rw [if_neg h2]; decide

theorem isOpenB_closeOf (o : Char) : isOpenB (closeOf o) = false := by
  unfold closeOf
  by_cases h1 : o = '\x7b'
  · rw [if_pos h1]; decide
  · rw [if_neg h1]
    by_cases h2 : o = '('
    · rw [if_pos h2]; decide
    · rw [if_neg h2]; decide

theorem vl_nil_nil (i : Nat) : validateLoop [] i [] = none := rfl

theorem vl_nil_cons (i : Nat) (t : Char) (stk : List Char) :
    validateLoop [] i (t :: stk) = some (.unmatchedOpening t) := rfl

theorem vl_cons_open {ch : Char} (rest : List Char) (i : Nat) (stack : List Char)
    (h : isOpenB ch = true) :
    validateLoop (ch :: rest) i stack = validateLoop rest (i + 1) (ch :: stack) := by
  simp [validateLoop, h]

theorem vl_cons_close_nil {ch : Char} (rest : List Char) (i : Nat)
    (h1 : isOpenB ch = false) (h2 : isCloseB ch = true) :
    validateLoop (ch :: rest) i [] = some (.unmatchedClosing i) := by
  simp [validateLoop, h1, h2]

theorem vl_cons_close_match {ch last : Char} (rest : List Char) (i : Nat) (stk : List Char)
    (h1 : isOpenB ch = false) (h2 : isCloseB ch = true) (hm : closeOf last = ch) :
    validateLoop (ch :: rest) i (last :: stk) = validateLoop rest (i + 1) stk := by
  simp [validateLoop, h1, h2, hm]

theorem vl_cons_close_mismatch {ch last : Char} (rest : List Char) (i : Nat) (stk : List Char)
    (h1 : isOpenB ch = false) (h2 : isCloseB ch = true) (hm : ¬ closeOf last = ch) :
    validateLoop (ch :: rest) i (last :: stk) = some (.mismatched i) := by
  simp [validateLoop, h1, h2, hm]

theorem vl_cons_other {ch : Char} (rest : List Char) (i : Nat) (stack : List Char)
    (h1 : isOpenB ch = false) (h2 : isCloseB ch = false) :
    validateLoop (ch :: rest) i stack = validateLoop rest (i + 1) stack := by
  simp [validateLoop, h1, h2]

theorem nested_append {a b : List Char} (ha : Nested a) (hb : Nested b) :
    Nested (a ++ b) := by
  induction ha with
  | nil => exact hb
  | other c s hno hnc _ ih => exact Nested.other c (s ++ b) hno hnc ih
  | wrap o inner outer ho hin hout ih1 ih2 =>
    have e : (o :: inner ++ closeOf o :: outer) ++ b =
        o :: inner ++ closeOf o :: (outer ++ b) := by simp
    rw [e]
    exact Nested.wrap o inner (outer ++ b) ho hin ih2

theorem closes_cons_other {c : Char} {r stack : List Char}
    (h1 : isOpenB c = false) (h2 : isCloseB c = false) (h : Closes r stack) :
    Closes (c :: r) stack := by
  cases h with
  | base _ hs => exact Closes.base _ (Nested.other c r h1 h2 hs)
  | step inner o rest2 stk hi hrest =>
    rw [show c :: (inner ++ closeOf o :: rest2) = (c :: inner) ++ closeOf o :: rest2 from rfl]
    exact Closes.step (c :: inner) o rest2 stk (Nested.other c inner h1 h2 hi) hrest

theorem closes_prepend_nested {nn r stack : List Char} (hn : Nested nn) (h : Closes r stack) :
    Closes (nn ++ r) stack := by
  cases h with
  | base _ hs => exact Closes.base _ (nested_append hn hs)
  | step inner o rest2 stk hi hrest =>
    rw [show nn ++ (inner ++ closeOf o :: rest2) = (nn ++ inner) ++ closeOf o :: rest2 by
      rw [List.append_assoc]]
    exact Closes.step (nn ++ inner) o rest2 stk (nested_append hn hi) hrest

theorem loop_skip_nested {nn : List Char} (hn : Nested nn) :
    ∀ (t : List Char) (i : Nat) (stack : List Char),
      validateLoop (nn ++ t) i stack = validateLoop t (i + nn.length) stack := by
  induction hn with
  | nil =>
    intro t i stack
    simp
  | other c s hno hnc _ ih =>
    intro t i stack
    rw [List.cons_append, vl_cons_other _ _ _ hno hnc, ih t (i + 1) stack]
    congr 1
    simp only [List.length_cons]
    omega
  | wrap o inner outer ho hin hout ih1 ih2 =>
    intro t i stack
    have e : (o :: inner ++ closeOf o :: outer) ++ t =
        o :: (inner ++ (closeOf o :: (outer ++ t))) := by simp
    rw [e]
    rw [vl_cons_open _ _ _ ho]
    rw [ih1 (closeOf o :: (outer ++ t)) (i + 1) (o :: stack)]
    rw [vl_cons_close_match _ _ _ (isOpenB_closeOf o) (isCloseB_closeOf o) rfl]
    rw [ih2 t (i + 1 + inner.length + 1) stack]
    congr 1
    simp only [List.length_cons, List.length_append]
    omega

theorem loop_none_closes : ∀ (s : List Char) (i : Nat) (stack : List Char),
    validateLoop s i stack = none → Closes s stack := by
  intro s
  induction s with
  | nil =>
    intro i stack h
    cases stack with
    | nil => exact Closes.base [] Nested.nil
    | cons t stk =>
      rw [vl_nil_cons] at h
      cases h
  | cons ch rest ih =>
    intro i stack h
    by_cases ho : isOpenB ch = true
    · rw [vl_cons_open _ _ _ ho] at h
      cases ih (i + 1) (ch :: stack) h with
      | step inner o rest2 stk hi hrest =>
        have hblock : Nested (ch :: inner ++ closeOf ch :: ([] : List Char)) :=
          Nested.wrap ch inner [] ho hi Nested.nil
        have hpre := closes_prepend_nested hblock hrest
        have e : (ch :: inner ++ closeOf ch :: ([] : List Char)) ++ rest2 =
            ch :: (inner ++ closeOf ch :: rest2) := by simp
        rwa [e] at hpre
    · rw [Bool.not_eq_true] at ho
      by_cases hc : isCloseB ch = true
      · cases stack with
        | nil =>
          rw [vl_cons_close_nil _ _ ho hc] at h
          cases h
        | cons last stk =>
          by_cases hm : closeOf last = ch
          · rw [vl_cons_close_match _ _ _ ho hc hm] at h
            have hrest := ih (i + 1) stk h
            have hstep := Closes.step [] last rest stk Nested.nil hrest
            rw [List.nil_append, hm] at hstep
            exact hstep
          · rw [vl_cons_close_mismatch _ _ _ ho hc hm] at h
            cases h
      · rw [Bool.not_eq_true] at hc
        rw [vl_cons_other _ _ _ ho hc] at h
        exact closes_cons_other ho hc (ih (i + 1) stack h)

theorem closes_loop_none {s stack : List Char} (h : Closes s stack) :
    ∀ i, validateLoop s i stack = none := by
  induction h with
  | base t ht =>
    intro i
    have hskip := loop_skip_nested ht [] i []
    simpa using hskip
  | step inner c rest2 stk hi hrest ih =>
    intro i
    rw [loop_skip_nested hi (closeOf c :: rest2) i (c :: stk)]
    rw [vl_cons_close_match _ _ _ (isOpenB_closeOf c) (isCloseB_closeOf c) rfl]
    exact ih _

theorem closes_nil_iff (s : List Char) : Closes s [] ↔ Nested s := by
  constructor
  · intro h
    cases h with
    | base _ hs => exact hs
  · exact Closes.base s

theorem loop_none_iff_nested (s : List Char) :
    validateLoop s 0 [] = none ↔ Nested s := by
  constructor
  · intro h
    exact (closes_nil_iff s).mp (loop_none_closes s 0 [] h)
  · intro h
    exact closes_loop_none ((closes_nil_iff s).mpr h) 0

theorem closer_error_take : ∀ (s : List Char) (j : Nat) (stack : List Char)
    (e : LatexError) (i : Nat),
    validateLoop s j stack = some e → (e = .unmatchedClosing i ∨ e = .mismatched i) →
    j ≤ i ∧ ∀ t, validateLoop (s.take (i - j + 1) ++ t) j stack = some e := by
  intro s
  induction s with
  | nil =>
    intro j stack e i h he
    cases stack with
    | nil =>
      rw [vl_nil_nil] at h
      cases h
    | cons top stk =>
      rw [vl_nil_cons] at h
      injection h with h
      rcases he with rfl | rfl <;> simp at h
  | cons ch rest ih =>
    intro j stack e i h he
    by_cases ho : isOpenB ch = true
    · rw [vl_cons_open _ _ _ ho] at h
      obtain ⟨hji, htake⟩ := ih (j + 1) (ch :: stack) e i h he
      refine ⟨by omega, fun t => ?_⟩
      have harith : i - j + 1 = (i - (j + 1) + 1) + 1 := by omega
      rw [harith, List.take_succ_cons, List.cons_append, vl_cons_open _ _ _ ho]
      exact htake t
    · rw [Bool.not_eq_true] at ho
      by_cases hc : isCloseB ch = true
      · cases stack with
        | nil =>
          rw [vl_cons_close_nil _ _ ho hc] at h
          injection h with h
          subst h
          rcases he with he2 | he2
          · have hji : j = i := by simpa using he2
            subst hji
            refine ⟨le_rfl, fun t => ?_⟩
            have h1 : j - j + 1 = 1 := by omega
            rw [h1, show (ch :: rest).take 1 = [ch] from by simp, List.cons_append]
            exact vl_cons_close_nil _ _ ho hc
          · exact absurd he2 (by simp)
        | cons last stk =>
          by_cases hm : closeOf last = ch
          · rw [vl_cons_close_match _ _ _ ho hc hm] at h
            obtain ⟨hji, htake⟩ := ih (j + 1) stk e i h he
            refine ⟨by omega, fun t => ?_⟩
            have harith : i - j + 1 = (i - (j + 1) + 1) + 1 := by omega
            rw [harith, List.take_succ_cons, List.cons_append,
              vl_cons_close_match _ _ _ ho hc hm]
            exact htake t
          · rw [vl_cons_close_mismatch _ _ _ ho hc hm] at h
            injection h with h
            subst h
            rcases he with he2 | he2
            · exact absurd he2 (by simp)
            · have hji : j = i := by simpa using he2
              subst hji
              refine ⟨le_rfl, fun t => ?_⟩
              have h1 : j - j + 1 = 1 := by omega
              rw [h1, show (ch :: rest).take 1 = [ch] from by simp, List.cons_append]
              exact vl_cons_close_mismatch _ _ _ ho hc hm
      · rw [Bool.not_eq_true] at hc
        rw [vl_cons_other _ _ _ ho hc] at h
        obtain ⟨hji, htake⟩ := ih (j + 1) stack e i h he
        refine ⟨by omega, fun t => ?_⟩
        have harith : i - j + 1 = (i - (j + 1) + 1) + 1 := by omega
        rw [harith, List.take_succ_cons, List.cons_append, vl_cons_other _ _ _ ho hc]
        exact htake t

theorem loop_opening_split : ∀ (s : List Char) (j : Nat) (stack : List Char) (c : Char),
    validateLoop s j stack = some (.unmatchedOpening c) →
    (∃ u v, s = u ++ c :: v ∧ isOpenB c = true ∧ Nested v) ∨
    (∃ stk1 stk2, stack = stk1 ++ c :: stk2 ∧ Closes s stk1) := by
  intro s
  induction s with
  | nil =>
    intro j stack c h
    cases stack with
    | nil =>
      rw [vl_nil_nil] at h
      cases h
    | cons top stk =>
      rw [vl_nil_cons] at h
      injection h with h
      have htop : top = c := by simpa using h
      subst htop
      right
      exact ⟨[], stk, rfl, Closes.base [] Nested.nil⟩
  | cons ch rest ih =>
    intro j stack c h
    by_cases ho : isOpenB ch = true
    · rw [vl_cons_open _ _ _ ho] at h
      rcases ih (j + 1) (ch :: stack) c h with ⟨u, v, hrest, hoc, hv⟩ |
        ⟨stk1, stk2, hstack, hcl⟩
      · left
        exact ⟨ch :: u, v, by rw [hrest]; rfl, hoc, hv⟩
      · cases stk1 with
        | nil =>
          rw [List.nil_append] at hstack
          injection hstack with h1 h2
          subst h1
          left
          exact ⟨[], rest, rfl, ho, (closes_nil_iff rest).mp hcl⟩
        | cons x stk1b =>
          rw [List.cons_append] at hstack
          injection hstack with h1 h2
          subst h1
          cases hcl with
          | step inner o rest2 stk hi hrest2 =>
            right
            refine ⟨stk1b, stk2, h2, ?_⟩
            have hblock : Nested (ch :: inner ++ closeOf ch :: ([] : List Char)) :=
              Nested.wrap ch inner [] ho hi Nested.nil
            have hpre := closes_prepend_nested hblock hrest2
            have e : (ch :: inner ++ closeOf ch :: ([] : List Char)) ++ rest2 =
                ch :: (inner ++ closeOf ch :: rest2) := by simp
            rwa [e] at hpre
    · rw [Bool.not_eq_true] at ho
      by_cases hc : isCloseB ch = true
      · cases stack with
        | nil =>
          rw [vl_cons_close_nil _ _ ho hc] at h
          simp at h
        | cons last stk =>
          by_cases hm : closeOf last = ch
          · rw [vl_cons_close_match _ _ _ ho hc hm] at h
            rcases ih (j + 1) stk c h with ⟨u, v, hrest, hoc, hv⟩ |
              ⟨stk1, stk2, hstk, hcl⟩
            · left
              exact ⟨ch :: u, v, by rw [hrest]; rfl, hoc, hv⟩
            · right
              refine ⟨last :: stk1, stk2, by rw [hstk]; rfl, ?_⟩
              have hstep := Closes.step [] last rest stk1 Nested.nil hcl
              rw [List.nil_append, hm] at hstep
              exact hstep
          · rw [vl_cons_close_mismatch _ _ _ ho hc hm] at h
            simp at h
      · rw [Bool.not_eq_true] at hc
        rw [vl_cons_other _ _ _ ho hc] at h
        rcases ih (j + 1) stack c h with ⟨u, v, hrest, hoc, hv⟩ |
          ⟨stk1, stk2, hstk, hcl⟩
        · left
          exact ⟨ch :: u, v, by rw [hrest]; rfl, hoc, hv⟩
        · right
          exact ⟨stk1, stk2, hstk, closes_cons_other ho hc hcl⟩

theorem allSpace_of_words_nil : ∀ (s : List Char), wordsOf s = [] → allSpace s := by
  intro s
  induction s with
  | nil =>
    intro _ c hc
    cases hc
  | cons c rest ih =>
    intro h x hx
    by_cases hc : pySpace c = true
    · rcases List.mem_cons.mp hx with rfl | hx2
      · exact hc
      · rw [wordsOf_cons_space _ hc] at h
        exact ih h x hx2
    · rw [Bool.not_eq_true] at hc
      rw [wordsOf_cons_word _ _ hc] at h
      cases h

theorem pyStrip_nil_iff (s : List Char) : pyStrip s = [] ↔ allSpace s := by
  constructor
  · intro h
    apply allSpace_of_words_nil
    rw [← words_pyStrip s, h, wordsOf_nil]
  · intro h
    show rstrip (lstrip s) = []
    rw [show lstrip s = [] from dropWhile_allSpace_nil h]
    rfl

theorem loop_all_space : ∀ (s : List Char), allSpace s → ∀ i, validateLoop s i [] = none := by
  intro s
  induction s with
  | nil =>
    intro _ i
    rfl
  | cons c rest ih =>
    intro h i
    have hc : pySpace c = true := h c (List.mem_cons_self c rest)
    have hno : isOpenB c = false := by
      rw [Bool.eq_false_iff]
      intro hop
      simp only [isOpenB, Bool.or_eq_true, decide_eq_true_eq] at hop
      rcases hop with (rfl | rfl) | rfl <;> exact absurd hc (by decide)
    have hnc : isCloseB c = false := by
      rw [Bool.eq_false_iff]
      intro hcl
      simp only [isCloseB, Bool.or_eq_true, decide_eq_true_eq] at hcl
      rcases hcl with (rfl | rfl) | rfl <;> exact absurd hc (by decide)
    rw [vl_cons_other _ _ _ hno hnc]
    exact ih (fun x hx => h x (List.mem_cons_of_mem _ hx)) (i + 1)

theorem validate_latex_of_loop_some {s : List Char} {e : LatexError}
    (h : validateLoop s 0 [] = some e) : validate_latex s = some e := by
  unfold validate_latex
  rw [h]

theorem validate_latex_of_loop_none {s : List Char} (h : validateLoop s 0 [] = none) :
    validate_latex s = if pyStrip s = [] then some .emptyInput else none := by
  unfold validate_latex
  rw [h]

/-- C7: the validator succeeds exactly on correctly nested, not all-whitespace
input; an unmatched or mismatched closer fails with that closer's position and
is decided by the input up to that position alone; an unclosed-opener failure
names a character that opens an unclosed bracket followed by well-nested text,
i.e. the innermost unclosed opener; and bracket-clean all-whitespace input
fails as empty. -/
theorem validate_latex_spec :
    (∀ s, validate_latex s = none ↔ (Nested s ∧ pyStrip s ≠ [])) ∧
    (∀ s i e t, validate_latex s = some e →
      (e = .unmatchedClosing i ∨ e = .mismatched i) →
      validate_latex (s.take (i + 1) ++ t) = some e) ∧
    (∀ s c, validate_latex s = some (.unmatchedOpening c) →
      ∃ u v, s = u ++ c :: v ∧ isOpenB c = true ∧ Nested v) ∧
    (∀ s, pyStrip s = [] → validate_latex s = some .emptyInput) := by
  refine ⟨fun s => ?_, fun s i e t hv he => ?_, fun s c hv => ?_, fun s h => ?_⟩
  · constructor
    · intro hv
      rcases hloop : validateLoop s 0 [] with _ | e2
      · have hval := validate_latex_of_loop_none hloop
        rw [hv] at hval
        by_cases hstrip : pyStrip s = []
        · rw [if_pos hstrip] at hval
          cases hval
        · exact ⟨(loop_none_iff_nested s).mp hloop, hstrip⟩
      · rw [validate_latex_of_loop_some hloop] at hv
        cases hv
    · rintro ⟨hn, hstrip⟩
      have hloop := (loop_none_iff_nested s).mpr hn
      rw [validate_latex_of_loop_none hloop, if_neg hstrip]
  · rcases hloop : validateLoop s 0 [] with _ | e2
    · rw [validate_latex_of_loop_none hloop] at hv
      by_cases hstrip : pyStrip s = []
      · rw [if_pos hstrip] at hv
        injection hv with hv
        subst hv
        rcases he with he2 | he2 <;> exact absurd he2 (by simp)
      · rw [if_neg hstrip] at hv
        cases hv
    · rw [validate_latex_of_loop_some hloop] at hv
      injection hv with hv
      subst hv
      obtain ⟨-, htake⟩ := closer_error_take s 0 [] e2 i hloop he
      have harith : i - 0 + 1 = i + 1 := by omega
      rw [harith] at htake
      exact validate_latex_of_loop_some (htake t)
  · rcases hloop : validateLoop s 0 [] with _ | e2
    · rw [validate_latex_of_loop_none hloop] at hv
      by_cases hstrip : pyStrip s = []
      · rw [if_pos hstrip] at hv
        injection hv with hv
        exact absurd hv (by simp)
      · rw [if_neg hstrip] at hv
        cases hv
    · rw [validate_latex_of_loop_some hloop] at hv
      injection hv with hv
      subst hv
      rcases loop_opening_split s 0 [] c hloop with hleft | ⟨stk1, stk2, hstk, -⟩
      · exact hleft
      · cases stk1 <;> cases hstk
  · have hall : allSpace s := (pyStrip_nil_iff s).mp h
    rw [validate_latex_of_loop_none (loop_all_space s hall 0), if_pos h]

/-- C7 witness: the theorem applied at concrete inputs: `"{x}"` validates,
`"}"` fails at position 0 whatever follows it, and a blank input is reported
empty. -/
theorem validate_latex_spec_witness :
    validate_latex (strL "\x7bx\x7d") = none ∧
    validate_latex (strL "\x7d ( [") = some (.unmatchedClosing 0) ∧
    validate_latex (strL " ") = some .emptyInput := by
  refine ⟨?_, ?_, ?_⟩
  · apply (validate_latex_spec.1 (strL "\x7bx\x7d")).mpr
    constructor
    · have hx : Nested (strL "x") := Nested.other 'x' [] (by decide) (by decide) Nested.nil
      have hw := Nested.wrap '\x7b' (strL "x") [] (by decide) hx Nested.nil
      simpa using hw
    · decide
  · have hstep := (validate_latex_spec.2.1 (strL "\x7d") 0 (.unmatchedClosing 0)
      (strL " ( [")) (by decide) (Or.inl rfl)
    simpa using hstep
  · exact validate_latex_spec.2.2.2 (strL " ") (by decide)

/-!  ## C2: idempotent scoring, unconditional review log -/

theorem checkAnswer_correct_new {s : AppState} {q : Question} {topic : List Char}
    {q_idx : Nat} {ans : List Char}
    (h1 : norm ans = norm (correctText q)) (h2 : submitKey topic q_idx ∉ s.attempted) :
    checkAnswer s q topic q_idx ans =
      { s with
          score := s.score + 1
          attempted := submitKey topic q_idx :: s.attempted
          review := s.review ++ [(q.q, correctText q, ans)] } := by
  simp only [checkAnswer]
  rw [if_pos h1, if_neg h2]

theorem checkAnswer_correct_old {s : AppState} {q : Question} {topic : List Char}
    {q_idx : Nat} {ans : List Char}
    (h1 : norm ans = norm (correctText q)) (h2 : submitKey topic q_idx ∈ s.attempted) :
    checkAnswer s q topic q_idx ans =
      { s with review := s.review ++ [(q.q, correctText q, ans)] } := by
  simp only [checkAnswer]
  rw [if_pos h1, if_pos h2]

theorem checkAnswer_incorrect {s : AppState} {q : Question} {topic : List Char}
    {q_idx : Nat} {ans : List Char} (h1 : ¬ norm ans = norm (correctText q)) :
    checkAnswer s q topic q_idx ans =
      { s with review := s.review ++ [(q.q, correctText q, ans)] } := by
  simp only [checkAnswer]
  rw [if_neg h1]

theorem submitOp_some {s : AppState} {topic : List Char} {q_idx : Nat} {a : List Char}
    (h : q_idx < (bankGet s.quiz_data topic).length) :
    submitOp s topic q_idx (some a) =
      checkAnswer s ((bankGet s.quiz_data topic).get ⟨q_idx, h⟩) topic q_idx a := by
  unfold submitOp
  exact dif_pos h

theorem submit_after_credit : ∀ (n : Nat) (t : List Char) (i : Nat) (c : List Char)
    (s : AppState), i < (bankGet s.quiz_data t).length → submitKey t i ∈ s.attempted →
    (submitN n t i c s).score = s.score ∧
    (submitN n t i c s).attempted = s.attempted ∧
    (submitN n t i c s).review.length = s.review.length + n ∧
    (submitN n t i c s).quiz_data = s.quiz_data := by
  intro n
  induction n with
  | zero =>
    intro t i c s _ _
    exact ⟨rfl, rfl, rfl, rfl⟩
  | succ m ih =>
    intro t i c s hi hmem
    rw [show submitN (m + 1) t i c s = submitN m t i c (submitOp s t i (some c)) from rfl]
    have hfields : (submitOp s t i (some c)).score = s.score ∧
        (submitOp s t i (some c)).attempted = s.attempted ∧
        (submitOp s t i (some c)).review.length = s.review.length + 1 ∧
        (submitOp s t i (some c)).quiz_data = s.quiz_data := by
      rw [submitOp_some hi]
      by_cases hc : norm c = norm (correctText ((bankGet s.quiz_data t).get ⟨i, hi⟩))
      · rw [checkAnswer_correct_old hc hmem]
        exact ⟨rfl, rfl, by simp, rfl⟩
      · rw [checkAnswer_incorrect hc]
        exact ⟨rfl, rfl, by simp, rfl⟩
    obtain ⟨f1, f2, f3, f4⟩ := hfields
    have hi1 : i < (bankGet (submitOp s t i (some c)).quiz_data t).length := by
      rw [f4]
      exact hi
    have hmem1 : submitKey t i ∈ (submitOp s t i (some c)).attempted := by
      rw [f2]
      exact hmem
    obtain ⟨g1, g2, g3, g4⟩ := ih t i c (submitOp s t i (some c)) hi1 hmem1
    refine ⟨by rw [g1, f1], by rw [g2, f2], by rw [g3, f3]; omega, by rw [g4, f4]⟩

/-- C2: submitting the correct option text for the same question N times in a
row credits the score exactly once (recorded in the credited set on the first
correct submission) while the review log grows by N entries; an incorrect
submission changes neither score nor credited set but still appends exactly
one review entry. -/
theorem idempotent_credit (s : AppState) (t : List Char) (i N : Nat) (c : List Char)
    (hi : i < (bankGet s.quiz_data t).length)
    (hcorrect : norm c = norm (correctText ((bankGet s.quiz_data t).get ⟨i, hi⟩)))
    (hN : 1 ≤ N) (hnew : submitKey t i ∉ s.attempted) :
    (submitN N t i c s).score = s.score + 1 ∧
    (submitN N t i c s).attempted = submitKey t i :: s.attempted ∧
    (submitN N t i c s).review.length = s.review.length + N ∧
    (∀ (s2 : AppState) (t2 : List Char) (i2 : Nat) (c2 : List Char)
      (h2 : i2 < (bankGet s2.quiz_data t2).length),
      norm c2 ≠ norm (correctText ((bankGet s2.quiz_data t2).get ⟨i2, h2⟩)) →
      submitOp s2 t2 i2 (some c2) = { s2 with review := s2.review ++
        [(((bankGet s2.quiz_data t2).get ⟨i2, h2⟩).q,
          correctText ((bankGet s2.quiz_data t2).get ⟨i2, h2⟩), c2)] }) := by
  obtain ⟨M, rfl⟩ : ∃ M, N = M + 1 := ⟨N - 1, by omega⟩
  rw [show submitN (M + 1) t i c s = submitN M t i c (submitOp s t i (some c)) from rfl]
  have h1 : submitOp s t i (some c) =
      { s with
          score := s.score + 1
          attempted := submitKey t i :: s.attempted
          review := s.review ++ [((((bankGet s.quiz_data t).get ⟨i, hi⟩)).q,
            correctText ((bankGet s.quiz_data t).get ⟨i, hi⟩), c)] } := by
    rw [submitOp_some hi, checkAnswer_correct_new hcorrect hnew]
  have hi1 : i < (bankGet (submitOp s t i (some c)).quiz_data t).length := by
    rw [h1]
    exact hi
  have hmem1 : submitKey t i ∈ (submitOp s t i (some c)).attempted := by
    rw [h1]
    exact List.mem_cons_self _ _
  obtain ⟨g1, g2, g3, g4⟩ := submit_after_credit M t i c (submitOp s t i (some c)) hi1 hmem1
  refine ⟨?_, ?_, ?_, ?_⟩
  · rw [g1, h1]
  · rw [g2, h1]
  · rw [g3, h1]
    simp only [List.length_append, List.length_cons, List.length_nil]
    omega
  · intro s2 t2 i2 c2 h2 hneq
    rw [submitOp_some h2, checkAnswer_incorrect hneq]

/-- C2 witness: in a fresh session, submitting `"%"` twice for the third
Basics question (whose key is `"%"`) scores exactly one point and logs two
review entries. -/
theorem idempotent_credit_witness :
    (submitN 2 (strL "Basics") 2 (strL "%") initState).score = 1 ∧
    (submitN 2 (strL "Basics") 2 (strL "%") initState).review.length = 2 := by
  have h := idempotent_credit initState (strL "Basics") 2 2 (strL "%") (by decide)
    (by decide) (by decide) (by decide)
  exact ⟨h.1, h.2.2.1⟩

/-!  ## C9: the bank append and its frame -/

theorem bankGet_appendQ_same : ∀ (bank : Bank) (t : List Char) (q : Question),
    hasTopic bank t = true → bankGet (appendQ bank t q) t = bankGet bank t ++ [q] := by
  intro bank
  induction bank with
  | nil =>
    intro t q h
    cases h
  | cons p rest ih =>
    intro t q h
    obtain ⟨t0, qs⟩ := p
    by_cases ht : t0 = t
    · simp [appendQ, bankGet, ht]
    · simp [appendQ, bankGet, ht]
      apply ih
      unfold hasTopic at h
      rw [Bool.or_eq_true] at h
      rcases h with h | h
      · exact absurd (by simpa using h) ht
      · exact h

theorem bankGet_appendQ_other : ∀ (bank : Bank) (t t2 : List Char) (q : Question),
    t2 ≠ t → bankGet (appendQ bank t q) t2 = bankGet bank t2 := by
  intro bank
  induction bank with
  | nil =>
    intro t t2 q _
    rfl
  | cons p rest ih =>
    intro t t2 q hne
    obtain ⟨t0, qs⟩ := p
    by_cases ht : t0 = t
    · have ht2 : ¬ t0 = t2 := by
        rw [ht]
        exact fun e => hne e.symm
      subst ht
      simp [appendQ, bankGet, ht2]
    · by_cases ht2 : t0 = t2
      · subst ht2
        simp [appendQ, bankGet, ht]
      · simp [appendQ, bankGet, ht, ht2]
        exact ih t t2 q hne

/-- C9: appending a question to a topic places it at the end, at index equal
to the sequence's length before the append; every question already present
keeps its index and content; every other topic's sequence is untouched; and
the session state is initialized with its own working copy of the static
catalog `QUIZ`, which appends target instead of the catalog. -/
theorem bank_append_frame (bank : Bank) (t : List Char) (q : Question)
    (hmem : hasTopic bank t = true) :
    bankGet (appendQ bank t q) t = bankGet bank t ++ [q] ∧
    (bankGet (appendQ bank t q) t).get? (bankGet bank t).length = some q ∧
    (∀ j, j < (bankGet bank t).length →
      (bankGet (appendQ bank t q) t).get? j = (bankGet bank t).get? j) ∧
    (∀ t2, t2 ≠ t → bankGet (appendQ bank t q) t2 = bankGet bank t2) ∧
    initState.quiz_data = QUIZ := by
  have hsame := bankGet_appendQ_same bank t q hmem
  refine ⟨hsame, ?_, ?_, fun t2 h => bankGet_appendQ_other bank t t2 q h, rfl⟩
  · rw [hsame]
    exact List.get?_concat_length _ _
  · intro j hj
    rw [hsame]
    exact List.get?_append hj

/-- C9 witness: appending a demo question to the Basics topic of the static
catalog puts it at the end; the Basics sequence previously had five
questions, so the new one sits at index 5. -/
theorem bank_append_frame_witness :
    (bankGet (appendQ QUIZ (strL "Basics")
      ⟨.jstr (strL "Q?"), .jstr (strL "B"), []⟩) (strL "Basics")).get? 5 =
      some ⟨.jstr (strL "Q?"), .jstr (strL "B"), []⟩ :=
  (bank_append_frame QUIZ (strL "Basics") ⟨.jstr (strL "Q?"), .jstr (strL "B"), []⟩
    (by decide)).2.1

/-!  ## C5 and C3: ingestion -/

theorem rget_rset_same (r : QRecord) (k : List Char) (v : JValue) :
    rget (rset r k v) k = some v := by
  induction r with
  | nil => simp [rset, rget]
  | cons p rest ih =>
    obtain ⟨k2, v2⟩ := p
    by_cases hk : k2 = k
    · simp [rset, rget, hk]
    · simp [rset, rget, hk]
      exact ih

theorem rget_rset_other (r : QRecord) (k k2 : List Char) (v : JValue) (hne : ¬ k2 = k) :
    rget (rset r k v) k2 = rget r k2 := by
  induction r with
  | nil =>
    have h2 : ¬ k = k2 := fun e => hne e.symm
    simp [rset, rget, h2]
  | cons p rest ih =>
    obtain ⟨k0, v0⟩ := p
    by_cases hk : k0 = k
    · subst hk
      simp [rset, rget, show ¬ k0 = k2 from fun e => hne e.symm]
    · by_cases hk2 : k0 = k2
      · subst hk2
        simp [rset, rget, hk]
      · simp [rset, rget, hk, hk2]
        exact ih

theorem letter_to_index_jstr (s : List Char) :
    letter_to_index (.jstr s) = letter_to_index_str s := rfl

theorem normalizeAnswer_letter {r : QRecord} {a : List Char} {i : Nat}
    (ha : rget r aKey = some (.jstr a)) (hia : letter_to_index_str a = some i)
    (hlt : i < (optionsOf r).length) :
    normalizeAnswer r =
      rset r aKey (.jstr (clean_labelV ((optionsOf r).get ⟨i, hlt⟩))) := by
  simp only [normalizeAnswer]
  rw [ha, Option.getD_some, letter_to_index_jstr, hia]
  exact dif_pos hlt

theorem toQuestion_rset_a (r : QRecord) (v : JValue) :
    toQuestion (rset r aKey v) = ⟨(rget r qKey).getD .jnull, v, optionsOf r⟩ := by
  unfold toQuestion optionsOf
  rw [rget_rset_same, rget_rset_other r aKey qKey v (by decide),
    rget_rset_other r aKey optionsKey v (by decide), Option.getD_some]

theorem ingestOp_valid {s : AppState} {t : List Char} {r : QRecord}
    (h : passesValidation (some r) = true) :
    ingestOp s t (some r) =
      { s with quiz_data := appendQ s.quiz_data t (toQuestion (normalizeAnswer r)) } := by
  unfold ingestOp
  exact if_pos h

theorem ingestOp_invalid {s : AppState} {t : List Char} {r : QRecord}
    (h : passesValidation (some r) = false) :
    ingestOp s t (some r) = s := by
  unfold ingestOp
  exact if_neg (by simp [h])

/-- C5: when a validated record's answer field is a string that resolves to
an in-range letter index, ingestion writes the label-stripped text of the
indexed option back into the record's answer field before appending, so the
question stored at the end of the topic's sequence carries that resolved
text as its answer. -/
theorem ingest_answer_writeback (s : AppState) (t : List Char) (r : QRecord)
    (a : List Char) (i : Nat)
    (ha : rget r aKey = some (.jstr a))
    (hia : letter_to_index_str a = some i)
    (hlt : i < (optionsOf r).length)
    (hval : passesValidation (some r) = true)
    (hmem : hasTopic s.quiz_data t = true) :
    (toQuestion (normalizeAnswer r)).a = .jstr (clean_labelV ((optionsOf r).get ⟨i, hlt⟩)) ∧
    bankGet (ingestOp s t (some r)).quiz_data t = bankGet s.quiz_data t ++
      [⟨(rget r qKey).getD .jnull, .jstr (clean_labelV ((optionsOf r).get ⟨i, hlt⟩)),
        optionsOf r⟩] := by
  have hnorm := normalizeAnswer_letter ha hia hlt
  have htq := toQuestion_rset_a r (.jstr (clean_labelV ((optionsOf r).get ⟨i, hlt⟩)))
  constructor
  · rw [hnorm, htq]
  · rw [ingestOp_valid hval]
    show bankGet (appendQ s.quiz_data t (toQuestion (normalizeAnswer r))) t = _
    rw [hnorm, htq, bankGet_appendQ_same s.quiz_data t _ hmem]

/-- C5 witness: ingesting the record with answer letter `B` and options
`A) 1 ... D) 4` stores the answer text `2`. -/
theorem ingest_answer_writeback_witness :
    (toQuestion (normalizeAnswer [(qKey, .jstr (strL "X?")), (aKey, .jstr (strL "B")),
      (optionsKey, .jlist [.jstr (strL "A) 1"), .jstr (strL "B) 2"), .jstr (strL "C) 3"),
        .jstr (strL "D) 4")])])).a = .jstr (strL "2") := by
  have h := (ingest_answer_writeback initState (strL "Basics")
    [(qKey, .jstr (strL "X?")), (aKey, .jstr (strL "B")),
      (optionsKey, .jlist [.jstr (strL "A) 1"), .jstr (strL "B) 2"), .jstr (strL "C) 3"),
        .jstr (strL "D) 4")])]
    (strL "B") 1 (by rfl) (by rfl) (by decide) (by rfl) (by decide)).1
  rw [h]
  rfl

theorem acceptShape_iff (r : QRecord) : passesValidation (some r) = true ↔ AcceptShape r := by
  show (!r.isEmpty && isListVal (rget r optionsKey) && truthyGet r qKey &&
    truthyGet r aKey) = true ↔ _
  rw [Bool.and_eq_true, Bool.and_eq_true, Bool.and_eq_true]
  unfold AcceptShape
  constructor
  · rintro ⟨⟨⟨h1, h2⟩, h3⟩, h4⟩
    refine ⟨?_, ?_, ?_, ?_⟩
    · intro he
      rw [he] at h1
      cases h1
    · unfold isListVal at h2
      rcases ho : rget r optionsKey with _ | v
      · rw [ho] at h2
        cases h2
      · rcases v with _ | b | n | st | xs | fs <;> rw [ho] at h2 <;> first
          | exact ⟨xs, rfl⟩
          | cases h2
    · unfold truthyGet at h3
      rcases ho : rget r qKey with _ | v
      · rw [ho] at h3
        cases h3
      · exact ⟨v, rfl, by rwa [ho] at h3⟩
    · unfold truthyGet at h4
      rcases ho : rget r aKey with _ | v
      · rw [ho] at h4
        cases h4
      · exact ⟨v, rfl, by rwa [ho] at h4⟩
  · rintro ⟨h1, ⟨xs, hxs⟩, ⟨vq, hq, htq⟩, ⟨va, hva, hta⟩⟩
    refine ⟨⟨⟨?_, ?_⟩, ?_⟩, ?_⟩
    · cases r with
      | nil => exact absurd rfl h1
      | cons p rest => rfl
    · rw [hxs]
      rfl
    · unfold truthyGet
      rw [hq]
      exact htq
    · unfold truthyGet
      rw [hva]
      exact hta

/-- C3 counterexample: the record with question `X?`, answer `B` and an
empty options list passes the code's shape check and is appended to the
bank, though the claim demands rejection with InvalidShape and an unchanged
bank (the check never looks at the options' length or element types). -/
theorem ingest_shape_claim_counterexample :
    passesValidation (some [(qKey, .jstr (strL "X?")), (aKey, .jstr (strL "B")),
      (optionsKey, .jlist [])]) = true ∧
    (bankGet (ingestOp initState (strL "Basics") (some [(qKey, .jstr (strL "X?")),
      (aKey, .jstr (strL "B")), (optionsKey, .jlist [])])).quiz_data
        (strL "Basics")).length =
      (bankGet initState.quiz_data (strL "Basics")).length + 1 := by
  constructor
  · decide
  · decide

/-- C3 (amended): the ingest shape check accepts exactly a non-empty parsed
record whose `options` field holds a list, of any length and element types,
and whose `q` and `a` fields are truthy; a record failing this is rejected
with the session unchanged, and in particular the record missing its `a`
field is rejected. -/
theorem ingest_shape_amended (s : AppState) (t : List Char) (r : QRecord) :
    (passesValidation (some r) = true ↔ AcceptShape r) ∧
    (¬ AcceptShape r → ingestOp s t (some r) = s) ∧
    passesValidation (some [(qKey, .jstr (strL "X?")),
      (optionsKey, .jlist [.jstr (strL "1"), .jstr (strL "2")])]) = false := by
  refine ⟨acceptShape_iff r, fun hna => ?_, by decide⟩
  have hnv : ¬ passesValidation (some r) = true := fun h => hna ((acceptShape_iff r).mp h)
  exact ingestOp_invalid (Bool.eq_false_iff.mpr hnv)

/-!  ## C10: the score invariant -/

/-- The score bookkeeping invariant: the score equals the size of the
credited set, kept as a duplicate-free list of keys. -/
def scoreInvariant (s : AppState) : Prop :=
  s.score = s.attempted.length ∧ s.attempted.Nodup

theorem stepAct_invariant (s : AppState) (o : QuizAct) (h : scoreInvariant s) :
    scoreInvariant (stepAct s o) ∧ s.score ≤ (stepAct s o).score ∧
      (stepAct s o).score ≤ s.score + 1 := by
  obtain ⟨hs, hd⟩ := h
  cases o with
  | ingest t p =>
    simp only [stepAct]
    rcases p with _ | r
    · exact ⟨⟨hs, hd⟩, le_rfl, Nat.le_succ _⟩
    · by_cases hv : passesValidation (some r) = true
      · rw [ingestOp_valid hv]
        exact ⟨⟨hs, hd⟩, le_rfl, Nat.le_succ _⟩
      · rw [ingestOp_invalid (Bool.eq_false_iff.mpr hv)]
        exact ⟨⟨hs, hd⟩, le_rfl, Nat.le_succ _⟩
  | submit t i a =>
    simp only [stepAct]
    rcases a with _ | c
    · exact ⟨⟨hs, hd⟩, le_rfl, Nat.le_succ _⟩
    · by_cases hi : i < (bankGet s.quiz_data t).length
      · rw [submitOp_some hi]
        by_cases hc : norm c = norm (correctText ((bankGet s.quiz_data t).get ⟨i, hi⟩))
        · by_cases hmem : submitKey t i ∈ s.attempted
          · rw [checkAnswer_correct_old hc hmem]
            exact ⟨⟨hs, hd⟩, le_rfl, Nat.le_succ _⟩
          · rw [checkAnswer_correct_new hc hmem]
            refine ⟨⟨?_, ?_⟩, ?_, ?_⟩
            · show s.score + 1 = (submitKey t i :: s.attempted).length
              rw [List.length_cons, hs]
            · exact List.nodup_cons.mpr ⟨hmem, hd⟩
            · show s.score ≤ s.score + 1
              omega
            · show s.score + 1 ≤ s.score + 1
              omega
        · rw [checkAnswer_incorrect hc]
          exact ⟨⟨hs, hd⟩, le_rfl, Nat.le_succ _⟩
      · rw [show submitOp s t i (some c) = s from by unfold submitOp; exact dif_neg hi]
        exact ⟨⟨hs, hd⟩, le_rfl, Nat.le_succ _⟩

theorem runActs_invariant : ∀ (acts : List QuizAct) (s : AppState), scoreInvariant s →
    scoreInvariant (runActs s acts) := by
  intro acts
  induction acts with
  | nil =>
    intro s h
    exact h
  | cons o rest ih =>
    intro s h
    show scoreInvariant (runActs (stepAct s o) rest)
    exact ih _ (stepAct_invariant s o h).1

/-- C10: from a fresh session, after any sequence of submissions and
ingestions the score equals the number of credited (topic, index) keys, so
it is a non-negative count; it never decreases, and any further single
action changes it by zero or one. -/
theorem score_matches_credited (acts : List QuizAct) :
    scoreInvariant (runActs initState acts) ∧
    (∀ o, (runActs initState acts).score ≤ (stepAct (runActs initState acts) o).score ∧
      (stepAct (runActs initState acts) o).score ≤ (runActs initState acts).score + 1) := by
  have hinv := runActs_invariant acts initState ⟨rfl, List.nodup_nil⟩
  exact ⟨hinv, fun o =>
    ⟨(stepAct_invariant _ o hinv).2.1, (stepAct_invariant _ o hinv).2.2⟩⟩
